import Mathlib

set_option linter.unusedVariables false

/-! Shallow embedding of the s5cmd core job parser (src/core/parse.go) and of
the select-command driver (src/unnamed/part_000, package command), together
with models of the small external interfaces they use (the opt parameter-type
enum, the url package, filepath.Base, filepath.Match, os.Stat).

Go strings are embedded as List Char, one entry per rune; every token the
claims exercise is ASCII, where Go's byte-wise and rune-wise operations agree. -/

deriving instance DecidableEq for Except

namespace S5cmd

def toL (s : String) : List Char := s.toList

/-- Character class of Go's strings.TrimSpace (unicode.IsSpace restricted to the
characters that can reach it here): space, tab, newline, vertical tab, form
feed, carriage return, NEL and NBSP. -/
def isSpaceGo (c : Char) : Bool :=
  c == ' ' || c == '\t' || c == '\n' || c == Char.ofNat 11 || c == Char.ofNat 12 ||
  c == Char.ofNat 13 || c == Char.ofNat 133 || c == Char.ofNat 160

/-- Character class of Go regexp's backslash-s: tab, newline, form feed,
carriage return, space. -/
def isWsRe (c : Char) : Bool :=
  c == '\t' || c == '\n' || c == Char.ofNat 12 || c == Char.ofNat 13 || c == ' '

/-- Go regexp dot: any character except newline. -/
def isDot (c : Char) : Bool := c != '\n'

/-- strings.Contains: pat occurs as a contiguous substring of s. -/
def hasSeq (pat : List Char) : List Char → Bool
  | [] => pat.isEmpty
  | c :: t => pat.isPrefixOf (c :: t) || hasSeq pat t

/-- strings.Split(s, " "): split at every single space. -/
def splitOnSpace : List Char → List (List Char)
  | [] => [[]]
  | c :: t =>
    if c = ' ' then [] :: splitOnSpace t
    else
      match splitOnSpace t with
      | [] => [[c]]
      | p :: ps => (c :: p) :: ps

/-- strings.Split(jobdesc, " #")[0]: the text before the first occurrence of
the two-character sequence space-hash. -/
def commentCut : List Char → List Char
  | [] => []
  | [c] => [c]
  | c :: d :: t => if c = ' ' ∧ d = '#' then [] else c :: commentCut (d :: t)

/-- strings.TrimSpace. -/
def trimSpace (s : List Char) : List Char :=
  ((s.dropWhile isSpaceGo).reverse.dropWhile isSpaceGo).reverse

/-- One pass of strings.Replace(s, double-space, single-space, -1): every
non-overlapping occurrence, scanned left to right. -/
def collapseOnce : List Char → List Char
  | [] => []
  | [c] => [c]
  | c :: d :: t => if c = ' ' ∧ d = ' ' then ' ' :: collapseOnce t else c :: collapseOnce (d :: t)

/-- Comment stripping and whitespace normalization performed at the top of
ParseJob: comment cut, TrimSpace, then exactly three passes of replacing
double spaces by single spaces. -/
def normalizeDesc (s : List Char) : List Char :=
  collapseOnce (collapseOnce (collapseOnce (trimSpace (commentCut s))))

/-- Modelled from the spec: the opt package's ParamType closed enum (spec
section 3); the opt package is outside src/. -/
inductive ParamType where
  | Unchecked | UncheckedOneOrMore | S3Obj | S3ObjOrDir | S3WildObj | S3Dir
  | FileObj | FileOrDir | Dir | Glob
deriving DecidableEq

/-- Modelled from the spec: the url package's RemoteURL value, bucket and key
parsed from an s3://bucket/key token (spec section 3); the url package is
outside src/. -/
structure S3Url where
  bucket : List Char
  key : List Char
deriving DecidableEq

/-- Modelled from the spec: url.ParseS3Url parses a scheme://bucket/key token;
a token without the s3 scheme or with an empty bucket is an error. -/
def ParseS3Url (s : List Char) : Option S3Url :=
  if (toL "s3://").isPrefixOf s then
    let rest := s.drop 5
    let bucket := rest.takeWhile (fun c => c ≠ '/')
    let rem := rest.dropWhile (fun c => c ≠ '/')
    if bucket.isEmpty then none
    else
      match rem with
      | [] => some ⟨bucket, []⟩
      | _ :: key => some ⟨bucket, key⟩
  else none

/-- Modelled from the spec: the formatted canonical form of a RemoteURL
(bucket, or bucket/key), round-tripping with ParseS3Url (spec section 3). -/
def S3Url.format (u : S3Url) : List Char :=
  if u.key.isEmpty then u.bucket else u.bucket ++ '/' :: u.key

/-- Modelled from the spec: url.HasWild, wildcard detection on a key. -/
def HasWild (s : List Char) : Bool := s.any (fun c => c == '*' || c == '?')

/-- filepath.Separator on the Unix targets this program is built for. -/
def sepChar : Char := '/'

/-- Model of Go path/filepath.Base (Unix rules): empty path gives a dot,
trailing separators are stripped, the last path element is returned, and
all-separator paths give the separator itself. -/
def filepathBase (path : List Char) : List Char :=
  if path.isEmpty then ['.']
  else
    let p := (path.reverse.dropWhile (fun c => c = sepChar)).reverse
    let last := (p.reverse.takeWhile (fun c => c ≠ sepChar)).reverse
    if last.isEmpty then [sepChar] else last

/-- Outcome of one os.Stat call, as far as parse.go inspects it: success on a
directory, success on a non-directory, a not-found error, or any other error. -/
inductive StatRes where
  | dir | file | notFound | otherErr
deriving DecidableEq

/-- Filesystem oracle: what os.Stat reports for each path at parse time. -/
def StatF : Type := List Char → StatRes

/-- Errors produced by parseArgumentByType, one constructor per errors.New site,
plus the error propagated from url.ParseS3Url and from filepath.Match. -/
inductive ArgErr where
  | urlParse
  | s3NoWildAllowed
  | s3WildRequired
  | s3KeyEmpty
  | s3KeyEndsSlash
  | s3DirNeedsSlash
  | resemblesS3
  | globChars
  | fileEndsSlash
  | fileIsDir
  | couldNotStat
  | dirIsFile
  | notGlob
  | badPattern
deriving DecidableEq

/-- JobArgument: canonical argument text plus the parsed S3 url for remote
arguments. -/
structure JobArgument where
  arg : List Char
  s3 : Option S3Url
deriving DecidableEq

/-- hasGlob from parse.go: strings.ContainsAny with the four characters
asterisk, open bracket, close bracket, question mark. -/
def hasGlob (s : List Char) : Bool :=
  s.any (fun c => c == '*' || c == '[' || c == ']' || c == '?')

/-- Result of Go path/filepath.Match: a matched flag, or ErrBadPattern. -/
inductive MatchRes where
  | ok (matched : Bool)
  | badPattern
deriving DecidableEq

/-- Scan loop of path/filepath's scanChunk (Unix build): cut the chunk at the
next star that is not inside a bracket range, keeping escaped pairs together. -/
def scanChunkCore (inrange : Bool) : List Char → List Char × List Char
  | [] => ([], [])
  | c :: t =>
    if c = '\\' then
      match t with
      | [] => (['\\'], [])
      | d :: t' =>
        let (ch, rest) := scanChunkCore inrange t'
        ('\\' :: d :: ch, rest)
    else if c = '[' then
      let (ch, rest) := scanChunkCore true t
      (c :: ch, rest)
    else if c = ']' then
      let (ch, rest) := scanChunkCore false t
      (c :: ch, rest)
    else if c = '*' ∧ ¬inrange then ([], c :: t)
    else
      let (ch, rest) := scanChunkCore inrange t
      (c :: ch, rest)

/-- scanChunk from path/filepath: strip leading stars, then cut one chunk. -/
def scanChunk (pattern : List Char) : Bool × List Char × List Char :=
  let p := pattern.dropWhile (fun c => c = '*')
  let star := decide (p.length ≠ pattern.length)
  let (chunk, rest) := scanChunkCore false p
  (star, chunk, rest)

/-- getEsc from path/filepath (Unix build): one possibly escaped range
endpoint; a class that would end right after it is a bad pattern. -/
def getEsc (chunk : List Char) : Except Unit (Char × List Char) :=
  match chunk with
  | [] => .error ()
  | c :: t =>
    if c = '-' ∨ c = ']' then .error ()
    else
      let rt : Option (Char × List Char) :=
        if c = '\\' then
          match t with
          | [] => none
          | d :: t' => some (d, t')
        else some (c, t)
      match rt with
      | none => .error ()
      | some (r, nchunk) => if nchunk.isEmpty then .error () else .ok (r, nchunk)

/-- Bracket-range loop inside matchChunk: consume lo-hi ranges until the
closing bracket, reporting whether the already-read rune r fell in a range. -/
def matchRanges (fuel : Nat) (r : Char) (chunk : List Char) (matched : Bool)
    (nrange : Nat) : Except Unit (Bool × List Char) :=
  match fuel with
  | 0 => .error ()
  | fuel + 1 =>
    if chunk.head? = some ']' ∧ nrange > 0 then .ok (matched, chunk.tail)
    else
      match getEsc chunk with
      | .error _ => .error ()
      | .ok (lo, chunk1) =>
        match (if chunk1.head? = some '-' then getEsc chunk1.tail
               else .ok (lo, chunk1)) with
        | .error _ => .error ()
        | .ok (hi, chunk2) =>
          matchRanges fuel r chunk2
            (matched || (lo.toNat ≤ r.toNat && r.toNat ≤ hi.toNat)) (nrange + 1)

/-- matchChunk from path/filepath (Unix build, current Go: after the match has
failed the loop keeps scanning the chunk to check well-formedness without
reading the name). Yields some rest on success, none on a plain mismatch. -/
def matchChunk (fuel : Nat) (chunk s : List Char) (failed : Bool) :
    Except Unit (Option (List Char)) :=
  match fuel with
  | 0 => .error ()
  | fuel + 1 =>
    match chunk with
    | [] => if failed then .ok none else .ok (some s)
    | c :: t =>
      let failed := failed || s.isEmpty
      if c = '[' then
        let rs : Char × List Char :=
          if failed then (Char.ofNat 0, s)
          else
            match s with
            | [] => (Char.ofNat 0, [])
            | a :: u => (a, u)
        let negated : Bool := t.head? = some '^'
        let t1 := if negated then t.tail else t
        match matchRanges (t1.length + 1) rs.1 t1 false 0 with
        | .error _ => .error ()
        | .ok (m, chunk2) => matchChunk fuel chunk2 rs.2 (failed || m == negated)
      else if c = '?' then
        if failed then matchChunk fuel t s true
        else
          match s with
          | [] => matchChunk fuel t [] true
          | a :: u => matchChunk fuel t u (a == sepChar)
      else if c = '\\' then
        match t with
        | [] => .error ()
        | d :: t' =>
          if failed then matchChunk fuel t' s true
          else
            match s with
            | [] => matchChunk fuel t' [] true
            | a :: u => matchChunk fuel t' u (d != a)
      else
        if failed then matchChunk fuel t s true
        else
          match s with
          | [] => matchChunk fuel t [] true
          | a :: u => matchChunk fuel t u (c != a)

/-- Trailing validation loop of path/filepath.Match: before returning a plain
false, the remaining chunks are checked for well-formedness. -/
def validateRest (fuel : Nat) (pattern : List Char) : MatchRes :=
  match fuel with
  | 0 => .badPattern
  | fuel + 1 =>
    match pattern with
    | [] => .ok false
    | _ :: _ =>
      let (_, chunk, rest) := scanChunk pattern
      match matchChunk (chunk.length + 1) chunk [] false with
      | .error _ => .badPattern
      | _ => validateRest fuel rest

/-- Result of the star retry loop of path/filepath.Match: continue the Pattern
loop with the rest of the name, fall through to the validation of the
remaining pattern, or report a bad pattern. -/
inductive StarRes where
  | proceed (t : List Char)
  | noMatch
  | bad

/-- Star retry loop of path/filepath.Match: skip one leading name character at
a time (never across a separator) and retry the chunk; restEmpty tells whether
the remaining pattern is empty, in which case a retry that leaves part of the
name unconsumed keeps scanning. -/
def starLoop : Nat → List Char → Bool → List Char → StarRes
  | 0, _, _, _ => .noMatch
  | sfuel + 1, chunk, restEmpty, name =>
    match name with
    | [] => .noMatch
    | a :: u =>
      if a = sepChar then .noMatch
      else
        match matchChunk (chunk.length + 1) chunk u false with
        | .error _ => .bad
        | .ok (some t) =>
          if restEmpty ∧ ¬t.isEmpty then starLoop sfuel chunk restEmpty u
          else .proceed t
        | .ok none => starLoop sfuel chunk restEmpty u

/-- Outer Pattern loop of path/filepath.Match (Unix build, current Go), at the
character level; the fuel strictly dominates the number of iterations, each of
which consumes part of the pattern. -/
def goMatch : Nat → List Char → List Char → MatchRes
  | 0, _, _ => .badPattern
  | fuel + 1, pattern, name =>
    match pattern with
    | [] => .ok name.isEmpty
    | _ :: _ =>
      let (star, chunk, rest) := scanChunk pattern
      if star ∧ chunk.isEmpty then .ok (!name.contains sepChar)
      else
        match matchChunk (chunk.length + 1) chunk name false with
        | .error _ => .badPattern
        | .ok r =>
          match r with
          | some t =>
            if t.isEmpty ∨ ¬rest.isEmpty then goMatch fuel rest t
            else if star then
              match starLoop (name.length + 1) chunk rest.isEmpty name with
              | .proceed t' => goMatch fuel rest t'
              | .noMatch => validateRest (rest.length + 1) rest
              | .bad => .badPattern
            else validateRest (rest.length + 1) rest
          | none =>
            if star then
              match starLoop (name.length + 1) chunk rest.isEmpty name with
              | .proceed t' => goMatch fuel rest t'
              | .noMatch => validateRest (rest.length + 1) rest
              | .bad => .badPattern
            else validateRest (rest.length + 1) rest

/-- filepath.Match as called by the Glob validator; the fuel amply exceeds the
number of Pattern-loop iterations. -/
def filepathMatch (pattern name : List Char) : MatchRes :=
  goMatch (pattern.length + name.length + 1) pattern name

/-- parseArgumentByType from parse.go, with the filesystem reached through the
stat oracle. -/
def parseArgumentByType (stat : StatF) (s : List Char) (t : ParamType)
    (fnObj : Option JobArgument) : Except ArgErr JobArgument :=
  let fnBase : List Char :=
    if t = .S3ObjOrDir ∨ t = .FileOrDir then
      match fnObj with
      | some j => filepathBase j.arg
      | none => []
    else []
  match t with
  | .Unchecked | .UncheckedOneOrMore => .ok ⟨s, none⟩
  | .S3Obj | .S3ObjOrDir | .S3WildObj | .S3Dir =>
    match ParseS3Url s with
    | none => .error .urlParse
    | some uri =>
      let s1 := toL "s3://" ++ uri.format
      if (t = .S3Obj ∨ t = .S3ObjOrDir) ∧ HasWild uri.key then .error .s3NoWildAllowed
      else if t = .S3WildObj ∧ ¬HasWild uri.key then .error .s3WildRequired
      else if t = .S3WildObj ∧ uri.key = [] then .error .s3KeyEmpty
      else
        let endsInSlash := uri.key.getLast? = some '/'
        if endsInSlash ∧ t = .S3Obj then .error .s3KeyEndsSlash
        else if ¬endsInSlash ∧ t = .S3Dir ∧ uri.key ≠ [] then .error .s3DirNeedsSlash
        else
          let ks2 : List Char × List Char :=
            if t = .S3ObjOrDir ∧ endsInSlash ∧ fnBase ≠ [] then
              (uri.key ++ fnBase, s1 ++ fnBase)
            else (uri.key, s1)
          let ks3 : List Char × List Char :=
            if t = .S3ObjOrDir ∧ ks2.1 = [] ∧ fnBase ≠ [] then
              (ks2.1 ++ fnBase, ks2.2 ++ '/' :: fnBase)
            else ks2
          .ok ⟨ks3.2, some ⟨uri.bucket, ks3.1⟩⟩
  | .FileObj | .FileOrDir | .Dir =>
    match ParseS3Url s with
    | some _ => .error .resemblesS3
    | none =>
      let s1 := if s = ['.'] then '.' :: [sepChar] else s
      let endsInSlash := s1.getLast? = some sepChar
      if hasGlob s1 then .error .globChars
      else
        match t with
        | .FileObj =>
          if endsInSlash then .error .fileEndsSlash
          else
            match stat s1 with
            | .dir => .error .fileIsDir
            | _ => .ok ⟨s1, none⟩
        | .FileOrDir =>
          let s2 := if endsInSlash ∧ fnBase ≠ [] then s1 ++ fnBase else s1
          if ¬endsInSlash then
            match stat s2 with
            | .otherErr => .error .couldNotStat
            | .dir => .ok ⟨s2 ++ [sepChar], none⟩
            | _ => .ok ⟨s2, none⟩
          else .ok ⟨s2, none⟩
        | _ =>
          if ¬endsInSlash then
            match stat s1 with
            | .otherErr => .error .couldNotStat
            | .file => .error .dirIsFile
            | _ => .ok ⟨s1 ++ [sepChar], none⟩
          else .ok ⟨s1, none⟩
  | .Glob =>
    if ¬hasGlob s then .error .notGlob
    else
      match filepathMatch s [] with
      | .badPattern => .error .badPattern
      | .ok _ => .ok ⟨s, none⟩

/-- Items of the three chaining regexes of parse.go: a greedy backslash-s star,
a literal, and a lazy dot-plus capture group; each regex is anchored at both
ends. -/
inductive RItem where
  | wsStar
  | lit (l : List Char)
  | lazyGroup
deriving DecidableEq

/-- Greedy backtracking for one backslash-s star against the continuation f:
drop k whitespace characters first, then ever fewer. -/
def wsTry (f : List Char → Option (List (List Char))) :
    Nat → List Char → Option (List (List Char))
  | 0, s => f s
  | k + 1, s =>
    match f (s.drop (k + 1)) with
    | some caps => some caps
    | none => wsTry f k s

/-- Lazy backtracking for one dot-plus group against the continuation f:
shortest extension first; acc holds the group read so far, reversed. -/
def lazyTry (f : List Char → Option (List (List Char))) :
    List Char → List Char → Option (List (List Char))
  | _, [] => none
  | acc, c :: t =>
    if isDot c then
      match f t with
      | some caps => some ((acc.reverse ++ [c]) :: caps)
      | none => lazyTry f (c :: acc) t
    else none

/-- Anchored matcher for a list of RItems in backtracking priority order,
returning the captures of the lazy groups; this mirrors Go regexp's
leftmost-first submatch semantics on the three anchored patterns below. -/
def rmatch : List RItem → List Char → Option (List (List Char))
  | [], s => if s.isEmpty then some [] else none
  | .lit l :: ps, s => if l.isPrefixOf s then rmatch ps (s.drop l.length) else none
  | .wsStar :: ps, s => wsTry (rmatch ps) (s.takeWhile isWsRe).length s
  | .lazyGroup :: ps, s => lazyTry (rmatch ps) [] s

/-- regexCmdAndOr from parse.go. -/
def patAndOr : List RItem :=
  [.wsStar, .lazyGroup, .wsStar, .lit (toL "&&"), .wsStar, .lazyGroup,
   .wsStar, .lit (toL "||"), .wsStar, .lazyGroup, .wsStar]

/-- regexCmdAnd from parse.go. -/
def patAnd : List RItem :=
  [.wsStar, .lazyGroup, .wsStar, .lit (toL "&&"), .wsStar, .lazyGroup, .wsStar]

/-- regexCmdOr from parse.go. -/
def patOr : List RItem :=
  [.wsStar, .lazyGroup, .wsStar, .lit (toL "||"), .wsStar, .lazyGroup, .wsStar]

/-- CommandDefinition of the spec's Command Registry: keyword, signature,
default option flags, accepted option flags (GetAcceptedOpts of its operation)
and an operation tag. The global table itself lives outside src/ and is passed
in explicitly (spec sections 2 and 9). -/
structure CommandDef where
  keyword : List Char
  params : List ParamType
  opts : List (List Char)
  acceptedOpts : List (List Char)
  operation : Nat
deriving DecidableEq

/-- Job from core: source text, matched command keyword, operation tag,
validated arguments, option flags, and the two continuation links. The two
execution counters (atomic uint32 pointers, freshly zero-initialized by the
parser and touched only during execution) are not represented. -/
inductive Job where
  | mk (sourceDesc : List Char) (command : List Char) (operation : Nat)
      (args : List JobArgument) (opts : List (List Char))
      (successCommand : Option Job) (failCommand : Option Job)

def Job.sourceDesc : Job → List Char
  | .mk d _ _ _ _ _ _ => d

def Job.command : Job → List Char
  | .mk _ c _ _ _ _ _ => c

def Job.operation : Job → Nat
  | .mk _ _ o _ _ _ _ => o

def Job.args : Job → List JobArgument
  | .mk _ _ _ a _ _ _ => a

def Job.opts : Job → List (List Char)
  | .mk _ _ _ _ o _ _ => o

def Job.successCommand : Job → Option Job
  | .mk _ _ _ _ _ s _ => s

def Job.failCommand : Job → Option Job
  | .mk _ _ _ _ _ _ f => f

/-- Assignment of the continuation fields performed at the end of ParseJob. -/
def Job.setConts : Job → Option Job → Option Job → Job
  | .mk d c o a op _ _, s, f => .mk d c o a op s f

/-- Errors returned by parseSingleJob and ParseJob, one constructor per
message shape. -/
inductive PErr where
  | nested
  | unknownCommand (kw : List Char)
  | invalidParams (kw : List Char)
  | invalidParamsArg (kw : List Char) (e : ArgErr)
deriving DecidableEq

/-- Option-flag scan of parseSingleJob (the k loop with its goto): starting at
token 1, consume recognized flag tokens, appending each accepted option that
equals the token; the first token that does not begin with a dash, or is an
unrecognized flag, becomes fileArgsStartPosition. When the loop instead runs
off the end of the token list, fileArgsStartPosition keeps its initial value 1,
exactly as in the source. Go reads the first byte of each token and would
panic on an empty token; empty tokens only arise from lines with adjacent
spaces, which no theorem below evaluates. -/
def optScanGo (accepted : List (List Char)) (k : Nat) (acc : List (List Char)) :
    List (List Char) → Nat × List (List Char)
  | [] => (1, acc)
  | pk :: rest =>
    if pk.head? ≠ some '-' then (k, acc)
    else
      let matched := accepted.filter (fun p => p = pk)
      if matched.isEmpty then (k, acc)
      else optScanGo accepted (k + 1) (acc ++ matched) rest

def optScan (accepted parts : List (List Char)) : Nat × List (List Char) :=
  optScanGo accepted 1 [] (parts.drop 1)

/-- Positional-argument loop of parseSingleJob: validate the token at
fileArgsStartPosition + i against params i, remembering the first validated
S3Obj or FileObj argument (the borrowed-basename source), maxI and lastType. -/
def fixedArgsLoop (stat : StatF) (parts : List (List Char)) (fasp : Nat) :
    List ParamType → Nat → List JobArgument → Option JobArgument → Nat →
    ParamType → Except ArgErr (List JobArgument × Option JobArgument × Nat × ParamType)
  | [], _, args, fnObj, maxI, lastType => .ok (args, fnObj, maxI, lastType)
  | t :: ts, i, args, fnObj, maxI, lastType =>
    match parseArgumentByType stat (parts.getD (fasp + i) []) t fnObj with
    | .error e => .error e
    | .ok a =>
      let fnObj' := if (t = .S3Obj ∨ t = .FileObj) ∧ fnObj = none then some a else fnObj
      fixedArgsLoop stat parts fasp ts (i + 1) (args ++ [a]) fnObj' i t

/-- Remaining-token loop of parseSingleJob (run when minCount and maxCount
differ): walk all of parts, skipping indices at most maxI + 1, validating each
remaining token with lastType — with exactly the indexing the source uses. -/
def extraArgsLoop (stat : StatF) (lastType : ParamType) (fnObj : Option JobArgument)
    (maxI : Nat) : List (List Char) → Nat → List JobArgument →
    Except ArgErr (List JobArgument)
  | [], _, args => .ok args
  | p :: ps, i, args =>
    if i ≤ maxI + 1 then extraArgsLoop stat lastType fnObj maxI ps (i + 1) args
    else
      match parseArgumentByType stat p lastType fnObj with
      | .error e => .error e
      | .ok a => extraArgsLoop stat lastType fnObj maxI ps (i + 1) (args ++ [a])

/-- Outcome of processing one candidate table entry inside parseSingleJob's
loop body. -/
inductive CandRes where
  | okJob (j : Job)
  | arityFail
  | argFail (e : ArgErr)

/-- Body of parseSingleJob's candidate loop for one entry whose keyword matched
parts 0: option scan, arity check against the signature, the positional loop
and the remaining-token loop. -/
def tryCandidate (stat : StatF) (c : CommandDef) (jobdesc : List Char)
    (parts : List (List Char)) : CandRes :=
  let fo := optScan c.acceptedOpts parts
  let fasp := fo.1
  let suppliedParamCount := parts.length - fasp
  let minCount := c.params.length
  let maxCountIsInf := minCount > 0 ∧ c.params.getLast? = some .UncheckedOneOrMore
  if suppliedParamCount < minCount ∨ (¬maxCountIsInf ∧ suppliedParamCount > minCount) then
    .arityFail
  else
    match fixedArgsLoop stat parts fasp c.params 0 [] none fasp .UncheckedOneOrMore with
    | .error e => .argFail e
    | .ok (args, fnObj, maxI, lastType) =>
      if maxCountIsInf then
        match extraArgsLoop stat lastType fnObj maxI parts 0 args with
        | .error e => .argFail e
        | .ok args2 =>
          .okJob (.mk jobdesc c.keyword c.operation args2 (c.opts ++ fo.2) none none)
      else .okJob (.mk jobdesc c.keyword c.operation args (c.opts ++ fo.2) none none)

/-- Candidate loop of parseSingleJob: the first fully successful candidate
wins; found records that some keyword matched, parseArgErr keeps the latest
argument-validation error (an arity failure leaves the previous one in place,
as in the source), and the final messages mirror the source's three returns. -/
def candLoop (stat : StatF) (jobdesc : List Char) (parts : List (List Char)) :
    List CommandDef → Bool → Option ArgErr → Option (List Char) →
    Except PErr (Option Job)
  | [], found, argErr, foundKw =>
    if found then
      match argErr with
      | some e => .error (.invalidParamsArg (foundKw.getD []) e)
      | none => .error (.invalidParams (parts.headD []))
    else .error (.unknownCommand (parts.headD []))
  | c :: cs, found, argErr, foundKw =>
    if parts.headD [] = c.keyword then
      match tryCandidate stat c jobdesc parts with
      | .okJob j => .ok (some j)
      | .arityFail => candLoop stat jobdesc parts cs true argErr (some c.keyword)
      | .argFail e => candLoop stat jobdesc parts cs true (some e) (some c.keyword)
    else candLoop stat jobdesc parts cs found argErr foundKw

/-- parseSingleJob from parse.go, over an explicit command table. -/
def parseSingleJob (commands : List CommandDef) (stat : StatF)
    (jobdesc : List Char) : Except PErr (Option Job) :=
  match jobdesc with
  | [] => .ok none
  | c0 :: _ =>
    if c0 = '#' then .ok none
    else if hasSeq (toL "&&") jobdesc then .error .nested
    else if hasSeq (toL "||") jobdesc then .error .nested
    else candLoop stat jobdesc (splitOnSpace jobdesc) commands false none none

/-- Assignment of successCommand and failCommand at the end of ParseJob, done
only when the main job is non-nil. -/
def attachConts : Option Job → Option Job → Option Job → Option Job
  | none, _, _ => none
  | some j, s, f => some (j.setConts s f)

/-- ParseJob from parse.go: normalize, then try the three anchored chaining
regexes in precedence order, parsing each captured segment with
parseSingleJob. -/
def ParseJob (commands : List CommandDef) (stat : StatF) (jobdesc : List Char) :
    Except PErr (Option Job) :=
  let d := normalizeDesc jobdesc
  match rmatch patAndOr d with
  | some [a, b, c] => do
    let j ← parseSingleJob commands stat a
    let s ← parseSingleJob commands stat b
    let f ← parseSingleJob commands stat c
    pure (attachConts j s f)
  | _ =>
    match rmatch patAnd d with
    | some [a, b] => do
      let j ← parseSingleJob commands stat a
      let s ← parseSingleJob commands stat b
      pure (attachConts j s none)
    | _ =>
      match rmatch patOr d with
      | some [a, b] => do
        let j ← parseSingleJob commands stat a
        let f ← parseSingleJob commands stat b
        pure (attachConts j none f)
      | _ => do
        let j ← parseSingleJob commands stat d
        pure (attachConts j none none)

/-- Classification of the error carried by one enumerated object descriptor. -/
inductive ObjErr where
  | noErr | cancel | fail (code : Nat)
deriving DecidableEq

/-- One descriptor from the object enumerator, as far as Select.Run inspects
it: directory flag, carried error, Glacier storage-class flag, and an id
standing for its URL. -/
structure ObjDesc where
  id : Nat
  isDir : Bool
  objErr : ObjErr
  glacier : Bool
deriving DecidableEq

/-- Outcome of one submitted select task (the closure built by prepareTask). -/
inductive TaskOut where
  | ok | fail (cancel : Bool) (code : Nat)
deriving DecidableEq

/-- Object loop of Select.Run: directory descriptors and cancellation-classified
descriptor errors are skipped; other descriptor errors are printed and skipped;
Glacier-class objects are printed and skipped; everything else is submitted to
the waiter. Returns the submitted ids in order. -/
def selectSubmits : List ObjDesc → List Nat
  | [] => []
  | o :: rest =>
    if o.isDir ∨ o.objErr = .cancel then selectSubmits rest
    else if o.objErr ≠ .noErr then selectSubmits rest
    else if o.glacier then selectSubmits rest
    else o.id :: selectSubmits rest

/-- Modelled from the spec: the parallel package's Waiter (outside src/). Its
Err() stream delivers the errors of completed tasks for collection, and
cancellation-classified errors are dropped from reporting (spec sections 4.4, 5
and 8). Completion order is modelled as submission order; the claimed
properties (emptiness and the collection of entries) are order-independent. -/
def waiterErrStream (taskRes : Nat → TaskOut) (ids : List Nat) : List (Nat × Nat) :=
  ids.filterMap (fun i =>
    match taskRes i with
    | .ok => none
    | .fail true _ => none
    | .fail false code => some (i, code))

/-- Select.Run from the command package, post-expansion phase: the object loop
plus the collector goroutine that appends every error received from
waiter.Err() to merror and is joined after Wait(). The three pre-loop failure
paths (source url parse, client construction, expansion) each return that error
alone and are outside this model. The aggregate multierror is represented as
the list of its sub-errors, the empty list standing for a nil merror. -/
def selectRun (objs : List ObjDesc) (taskRes : Nat → TaskOut) : List (Nat × Nat) :=
  waiterErrStream taskRes (selectSubmits objs)

/-! Concrete oracles and example registry tables used by the theorems below. -/

/-- Stat oracle reporting a missing path everywhere. -/
def statAllNotFound : StatF := fun _ => .notFound

/-- Stat oracle reporting an existing plain file everywhere. -/
def statAllFile : StatF := fun _ => .file

/-- Stat oracle reporting a stat failure other than not-found everywhere. -/
def statAllOther : StatF := fun _ => .otherErr

/-- Example registry entry: keyword x, empty signature, one accepted flag. -/
def tblFlagOnly : List CommandDef := [⟨toL "x", [], [], [toL "-n"], 0⟩]

/-- Example registry entry: keyword c, one fixed Unchecked slot followed by
UncheckedOneOrMore, one accepted flag. -/
def tblVar : List CommandDef :=
  [⟨toL "c", [.Unchecked, .UncheckedOneOrMore], [], [toL "-n"], 0⟩]

/-- Example registry entry: keyword cp with a single Unchecked slot. -/
def tblCp : List CommandDef := [⟨toL "cp", [.Unchecked], [], [], 0⟩]

/-- filepathBase never returns the empty string. -/
theorem filepathBase_ne_nil (path : List Char) : filepathBase path ≠ [] := by
  unfold filepathBase
  by_cases h : path.isEmpty
  · simp [h]
  · simp only [h, if_false, Bool.false_eq_true]
    split
    · simp
    · simp_all

/-! Claim C4: the option-scan boundary and the arity count. -/

/-- C4: evaluation of the code at the failing input. With the single-entry
table keyword x, empty signature, accepted flag -n — so that every token after
the keyword is a recognized option flag — the scan leaves
fileArgsStartPosition at its initial value 1; the already-consumed flag is
therefore counted again as a positional argument (supplied count 1, not the
claimed 0), and the only candidate is rejected with the arity-style
invalid-parameters error instead of matching. -/
theorem c4_recognized_flags_counted_as_positionals :
    optScan [toL "-n"] (splitOnSpace (toL "x -n")) = (1, [toL "-n"]) ∧
    parseSingleJob tblFlagOnly statAllNotFound (toL "x -n")
      = .error (.invalidParams (toL "x")) := by
  exact ⟨rfl, rfl⟩

/-! Claim C5: the remaining-token loop under leading option flags. -/

/-- C5: evaluation of the code at the failing input. For the table entry
keyword c, signature Unchecked then UncheckedOneOrMore, accepted flag -n, the
line c -n a b parses — but the remaining-token loop, whose skip bound
maxI + 1 ignores fileArgsStartPosition, validates and appends the token b a
second time: the argument list is a, b, b rather than one entry per remaining
token. -/
theorem c5_remaining_token_duplicated :
    parseSingleJob tblVar statAllNotFound (toL "c -n a b")
      = .ok (some (.mk (toL "c -n a b") (toL "c") 0
          [⟨toL "a", none⟩, ⟨toL "b", none⟩, ⟨toL "b", none⟩] [toL "-n"] none none)) := by
  exact rfl

/-! Claim C9: blank and comment lines. -/

/-- C9 counterexample: a line whose first character is a hash but which
contains a chaining operator is split by the two-segment And-regex; the hash
segment parses to a nil job, but the second segment is still parsed and its
unknown-command failure is returned — not the claimed nil job with nil
error. -/
theorem c9_hash_line_with_operator_errors :
    ParseJob tblFlagOnly statAllNotFound (toL "# a && b")
      = .error (.unknownCommand (toL "b")) := by
  exact rfl

/-! Claim C10: the dot-token rewrite. -/

/-- C10 counterexample: validating the dot token as FileOrDir when a first
file argument file.txt has already been seen appends that borrowed basename,
giving canonical string ./file.txt rather than the claimed ./ alone. -/
theorem c10_dot_fileordir_appends_basename :
    parseArgumentByType statAllNotFound (toL ".") .FileOrDir
        (some ⟨toL "file.txt", none⟩)
      = .ok ⟨toL "./file.txt", none⟩ := by
  exact rfl

/-- C10 amended: for every stat oracle and every borrowed argument, the dot
token is rewritten to dot-separator before any other local check; FileObj then
always fails with the ends-in-separator error, Dir always succeeds with
canonical dot-slash, and FileOrDir succeeds with dot-slash when no first file
argument was seen and with the borrowed basename appended otherwise — in all
cases without consulting the stat oracle. -/
theorem c10_dot_rewrite (st : StatF) (fnObj : Option JobArgument) :
    parseArgumentByType st (toL ".") .FileObj fnObj = .error .fileEndsSlash ∧
    parseArgumentByType st (toL ".") .Dir fnObj = .ok ⟨toL "./", none⟩ ∧
    parseArgumentByType st (toL ".") .FileOrDir none = .ok ⟨toL "./", none⟩ ∧
    ∀ j : JobArgument, parseArgumentByType st (toL ".") .FileOrDir (some j)
      = .ok ⟨toL "./" ++ filepathBase j.arg, none⟩ := by
  refine ⟨rfl, rfl, rfl, fun j => ?_⟩
  cases hb : filepathBase j.arg with
  | nil => exact absurd hb (filepathBase_ne_nil j.arg)
  | cons b bs =>
    simp only [parseArgumentByType, hb]
    rfl

/-! Substring lemmas for hasSeq. -/

theorem hasSeq_of_tail {pat : List Char} {c : Char} {t : List Char}
    (h : hasSeq pat t = true) : hasSeq pat (c :: t) = true := by
  simp [hasSeq, h]

theorem hasSeq_of_isPrefixOf {pat s : List Char} (h : pat.isPrefixOf s = true) :
    hasSeq pat s = true := by
  cases s with
  | nil =>
    cases pat with
    | nil => rfl
    | cons c t => simp [List.isPrefixOf] at h
  | cons c t => simp [hasSeq, h]

theorem hasSeq_of_drop {pat s : List Char} {k : Nat}
    (h : hasSeq pat (s.drop k) = true) : hasSeq pat s = true := by
  induction s generalizing k with
  | nil => simpa using h
  | cons c t ih =>
    cases k with
    | zero => exact h
    | succ k => exact hasSeq_of_tail (ih h)

theorem hasSeq_false_tail {pat : List Char} {c : Char} {t : List Char}
    (h : hasSeq pat (c :: t) = false) : hasSeq pat t = false := by
  cases hp : hasSeq pat t
  · rfl
  · rw [hasSeq_of_tail hp] at h
    exact absurd h (by simp)

/-! Collapse-pass lemmas: one pass of collapseOnce halves a run of spaces, so
three passes shrink runs of at most eight spaces to one, while a run of nine
leaves two adjacent spaces. -/

theorem collapseOnce_head (d : Char) (t : List Char) :
    (collapseOnce (d :: t)).head? = some d := by
  cases t with
  | nil => rfl
  | cons e u =>
    by_cases h : d = ' ' ∧ e = ' '
    · obtain ⟨h1, h2⟩ := h
      subst h1
      subst h2
      simp [collapseOnce]
    · simp [collapseOnce, h]

theorem collapseOnce_prefix_run :
    ∀ (u : List Char) (k : Nat),
      (List.replicate (k + 1) ' ').isPrefixOf (collapseOnce u) = true →
      (List.replicate (2 * k + 1) ' ').isPrefixOf u = true := by
  intro u
  induction u using collapseOnce.induct with
  | case1 =>
    intro k h
    simp [collapseOnce, List.replicate_succ, List.isPrefixOf] at h
  | case2 c =>
    intro k h
    simp only [collapseOnce, List.replicate_succ, List.isPrefixOf,
      Bool.and_eq_true, beq_iff_eq] at h
    obtain ⟨h1, h2⟩ := h
    cases k with
    | zero =>
      subst h1
      simp
    | succ k => simp [List.replicate_succ, List.isPrefixOf] at h2
  | case3 c d t hcd ih =>
    intro k h
    obtain ⟨rfl, rfl⟩ := hcd
    rw [show collapseOnce (' ' :: ' ' :: t) = ' ' :: collapseOnce t from by
      simp [collapseOnce]] at h
    simp only [List.replicate_succ, List.isPrefixOf, Bool.and_eq_true, beq_iff_eq] at h
    obtain ⟨-, h2⟩ := h
    cases k with
    | zero =>
      simp [List.replicate_succ, List.isPrefixOf]
    | succ k =>
      have h3 := ih k h2
      have harith : 2 * (k + 1) + 1 = (2 * k + 1) + 2 := by omega
      rw [harith, show (2 * k + 1) + 2 = ((2 * k + 1) + 1) + 1 from rfl]
      simp only [List.replicate_succ, List.isPrefixOf, Bool.and_eq_true, beq_iff_eq]
      exact ⟨trivial, trivial, h3⟩
  | case4 c d t hcd ih =>
    intro k h
    rw [show collapseOnce (c :: d :: t) = c :: collapseOnce (d :: t) from by
      simp [collapseOnce, hcd]] at h
    simp only [List.replicate_succ, List.isPrefixOf, Bool.and_eq_true, beq_iff_eq] at h
    obtain ⟨h1, h2⟩ := h
    cases k with
    | zero =>
      subst h1
      simp [List.isPrefixOf]
    | succ k =>
      exfalso
      have hd : (collapseOnce (d :: t)).head? = some d := collapseOnce_head d t
      cases hw : collapseOnce (d :: t) with
      | nil => rw [hw] at h2; simp [List.replicate_succ, List.isPrefixOf] at h2
      | cons e u =>
        rw [hw] at h2 hd
        simp only [List.head?_cons, Option.some.injEq] at hd
        simp only [List.replicate_succ, List.isPrefixOf, Bool.and_eq_true, beq_iff_eq] at h2
        exact hcd ⟨h1.symm, by rw [← hd]; exact h2.1.symm⟩

theorem collapseOnce_run_rev :
    ∀ (s : List Char) (k : Nat),
      hasSeq (List.replicate (k + 2) ' ') (collapseOnce s) = true →
      hasSeq (List.replicate (2 * k + 3) ' ') s = true := by
  intro s
  induction s using collapseOnce.induct with
  | case1 =>
    intro k h
    simp [collapseOnce, hasSeq, List.replicate_succ] at h
  | case2 c =>
    intro k h
    simp only [collapseOnce, hasSeq, Bool.or_eq_true] at h
    rcases h with h | h
    · simp [List.replicate_succ, List.isPrefixOf] at h
    · simp [hasSeq, List.replicate_succ] at h
  | case3 c d t hcd ih =>
    intro k h
    obtain ⟨rfl, rfl⟩ := hcd
    rw [show collapseOnce (' ' :: ' ' :: t) = ' ' :: collapseOnce t from by
      simp [collapseOnce]] at h
    rw [hasSeq] at h
    rcases Bool.or_eq_true_iff.mp h with h | h
    · simp only [List.replicate_succ, List.isPrefixOf, Bool.and_eq_true, beq_iff_eq] at h
      obtain ⟨-, h2⟩ := h
      have h3 := collapseOnce_prefix_run t k h2
      have harith : 2 * k + 3 = ((2 * k + 1) + 1) + 1 := by omega
      rw [harith]
      apply hasSeq_of_isPrefixOf
      simp only [List.replicate_succ, List.isPrefixOf, Bool.and_eq_true, beq_iff_eq]
      exact ⟨trivial, trivial, h3⟩
    · exact hasSeq_of_tail (hasSeq_of_tail (ih k h))
  | case4 c d t hcd ih =>
    intro k h
    rw [show collapseOnce (c :: d :: t) = c :: collapseOnce (d :: t) from by
      simp [collapseOnce, hcd]] at h
    rw [hasSeq] at h
    rcases Bool.or_eq_true_iff.mp h with h | h
    · exfalso
      simp only [List.replicate_succ, List.isPrefixOf, Bool.and_eq_true, beq_iff_eq] at h
      obtain ⟨h1, h2⟩ := h
      have hd : (collapseOnce (d :: t)).head? = some d := collapseOnce_head d t
      cases hw : collapseOnce (d :: t) with
      | nil => rw [hw] at h2; simp [List.replicate_succ, List.isPrefixOf] at h2
      | cons e u =>
        rw [hw] at h2 hd
        simp only [List.head?_cons, Option.some.injEq] at hd
        simp only [List.replicate_succ, List.isPrefixOf, Bool.and_eq_true, beq_iff_eq] at h2
        exact hcd ⟨h1.symm, by rw [← hd]; exact h2.1.symm⟩
    · exact hasSeq_of_tail (ih k h)

/-! Claim C3: comment stripping and whitespace collapsing. -/

/-- C3 counterexample: an internal run of nine spaces survives the three
collapse passes with two adjacent spaces left (nine to five to three to two),
so the normalized text of the claim's universally collapsed form does contain
two adjacent spaces. -/
theorem c3_nine_space_run_survives :
    normalizeDesc ('a' :: (List.replicate 9 ' ' ++ ['b'])) = toL "a  b" ∧
    hasSeq (toL "  ") (normalizeDesc ('a' :: (List.replicate 9 ' ' ++ ['b']))) = true := by
  exact ⟨rfl, rfl⟩

/-- C3 amended: ParseJob discards the text from the first space-hash onward,
trims the ends, and then applies exactly three passes of replacing adjacent
space pairs by one space; since each pass halves a run of spaces, the
normalized text contains no two adjacent spaces whenever the comment-stripped,
trimmed text contains no run of nine or more spaces (so runs of up to eight
collapse to a single space), while longer runs survive as in the
counterexample. -/
theorem c3_collapse_bounded (line : List Char)
    (h : hasSeq (List.replicate 9 ' ') (trimSpace (commentCut line)) = false) :
    normalizeDesc line
        = collapseOnce (collapseOnce (collapseOnce (trimSpace (commentCut line)))) ∧
    hasSeq (toL "  ") (normalizeDesc line) = false := by
  refine ⟨rfl, ?_⟩
  show hasSeq (List.replicate 2 ' ')
    (collapseOnce (collapseOnce (collapseOnce (trimSpace (commentCut line))))) = false
  by_contra hcon
  rw [Bool.not_eq_false] at hcon
  have h1 := collapseOnce_run_rev _ 0 hcon
  have h2 := collapseOnce_run_rev _ 1 h1
  have h3 := collapseOnce_run_rev _ 3 h2
  rw [show 2 * 3 + 3 = 9 from rfl] at h3
  rw [h3] at h
  exact Bool.true_eq_false.mp h

/-- C3 witness: a line with runs of at most three spaces, a comment and
untrimmed ends normalizes with no two adjacent spaces left. -/
theorem c3_collapse_bounded_witness :
    hasSeq (toL "  ") (normalizeDesc (toL " cp   a  b # note")) = false := by
  exact (c3_collapse_bounded (toL " cp   a  b # note") (by decide)).2

/-! Claim C8: Dir validation through the stat oracle. -/

/-- C8: for every local token validated as Dir that is not the bare dot and
does not end in the separator, with no glob characters and not parsing as a
remote location: an existing non-directory is rejected with the dir-param
error, a not-found path is accepted with the canonical string being the token
plus a trailing separator, and a stat failure other than not-found is the
stat error. -/
theorem c8_dir_stat_cases (st : StatF) (s : List Char)
    (hremote : ParseS3Url s = none) (hdot : s ≠ ['.'])
    (hglob : hasGlob s = false) (hslash : s.getLast? ≠ some sepChar) :
    (st s = .file → parseArgumentByType st s .Dir none = .error .dirIsFile) ∧
    (st s = .notFound → parseArgumentByType st s .Dir none = .ok ⟨s ++ [sepChar], none⟩) ∧
    (st s = .otherErr → parseArgumentByType st s .Dir none = .error .couldNotStat) := by
  refine ⟨fun hst => ?_, fun hst => ?_, fun hst => ?_⟩ <;>
    simp [parseArgumentByType, hremote, hdot, hglob, hslash, hst]

/-- C8 witness at the concrete token d, under each of the three stat
outcomes. -/
theorem c8_dir_stat_cases_witness :
    parseArgumentByType statAllFile (toL "d") .Dir none = .error .dirIsFile ∧
    parseArgumentByType statAllNotFound (toL "d") .Dir none = .ok ⟨toL "d/", none⟩ ∧
    parseArgumentByType statAllOther (toL "d") .Dir none = .error .couldNotStat := by
  refine ⟨(c8_dir_stat_cases statAllFile (toL "d") rfl (by decide) rfl (by decide)).1 rfl,
    ?_, (c8_dir_stat_cases statAllOther (toL "d") rfl (by decide) rfl (by decide)).2.2 rfl⟩
  exact (c8_dir_stat_cases statAllNotFound (toL "d") rfl (by decide) rfl (by decide)).2.1 rfl

/-! Claim C7: S3ObjOrDir with a borrowed basename. -/

/-- C7: validating a remote token as S3ObjOrDir with a borrowed first file
argument — when the parsed key is empty, the key becomes the borrowed basename
and the canonical string gains a separator plus the basename (so it ends in
slash-basename); when the parsed key instead ends in the separator (and has no
wildcard), the basename is appended to both the key and the canonical
string. -/
theorem c7_s3objordir_basename (st : StatF) (s : List Char) (uri : S3Url)
    (j : JobArgument) (hparse : ParseS3Url s = some uri) :
    (uri.key = [] →
      parseArgumentByType st s .S3ObjOrDir (some j)
        = .ok ⟨toL "s3://" ++ uri.format ++ '/' :: filepathBase j.arg,
            some ⟨uri.bucket, filepathBase j.arg⟩⟩ ∧
      ('/' :: filepathBase j.arg) <:+
        (toL "s3://" ++ uri.format ++ '/' :: filepathBase j.arg)) ∧
    (uri.key.getLast? = some '/' → HasWild uri.key = false →
      parseArgumentByType st s .S3ObjOrDir (some j)
        = .ok ⟨toL "s3://" ++ uri.format ++ filepathBase j.arg,
            some ⟨uri.bucket, uri.key ++ filepathBase j.arg⟩⟩) := by
  obtain ⟨b, k⟩ := uri
  cases hb : filepathBase j.arg with
  | nil => exact absurd hb (filepathBase_ne_nil j.arg)
  | cons c cs =>
    constructor
    · rintro rfl
      constructor
      · simp only [parseArgumentByType, hparse, hb]
        rfl
      · exact List.suffix_append _ _
    · intro hsl hw
      simp only [parseArgumentByType, hparse, hb] at *
      simp [hsl, hw, List.append_eq_nil]

/-- C7 witness: an empty-key remote token and a slash-terminated-key remote
token, both with borrowed basename file.txt. -/
theorem c7_s3objordir_basename_witness :
    parseArgumentByType statAllNotFound (toL "s3://bucket") .S3ObjOrDir
        (some ⟨toL "file.txt", none⟩)
      = .ok ⟨toL "s3://bucket/file.txt", some ⟨toL "bucket", toL "file.txt"⟩⟩ ∧
    parseArgumentByType statAllNotFound (toL "s3://bucket/dir/") .S3ObjOrDir
        (some ⟨toL "file.txt", none⟩)
      = .ok ⟨toL "s3://bucket/dir/file.txt", some ⟨toL "bucket", toL "dir/file.txt"⟩⟩ := by
  constructor
  · exact ((c7_s3objordir_basename statAllNotFound (toL "s3://bucket")
      ⟨toL "bucket", []⟩ ⟨toL "file.txt", none⟩ rfl).1 rfl).1
  · exact (c7_s3objordir_basename statAllNotFound (toL "s3://bucket/dir/")
      ⟨toL "bucket", toL "dir/"⟩ ⟨toL "file.txt", none⟩ rfl).2 rfl rfl

/-! Claim C6: the glob-character set. -/

/-- hasGlob holds exactly when the token contains one of the four characters
asterisk, open bracket, close bracket, question mark. -/
theorem hasGlob_iff (s : List Char) :
    hasGlob s = true ↔ ∃ c ∈ s, c = '*' ∨ c = '[' ∨ c = ']' ∨ c = '?' := by
  simp only [hasGlob, List.any_eq_true, Bool.or_eq_true, beq_iff_eq]
  constructor <;> (rintro ⟨c, hc, h⟩; exact ⟨c, hc, by tauto⟩)

/-- C6 counterexample: the close bracket alone triggers the glob-characters
machinery — the token containing only a close bracket among the special
characters is rejected by FileObj with the glob-characters error and accepted
by Glob, although it contains none of the three claimed glob characters. -/
theorem c6_close_bracket_triggers_glob :
    parseArgumentByType statAllNotFound (toL "a]b") .FileObj none
      = .error .globChars ∧
    parseArgumentByType statAllNotFound (toL "a]b") .Glob none
      = .ok ⟨toL "a]b", none⟩ ∧
    (toL "a]b").any (fun c => c == '*' || c == '[' || c == '?') = false := by
  exact ⟨rfl, rfl, rfl⟩

/-- C6 amended: the glob set used by hasGlob is the four characters asterisk,
open bracket, close bracket, question mark. Glob validation succeeds exactly
when the token contains one of those four and filepath.Match reports no
pattern-syntax error; a non-remote token containing one of the four fails
FileObj validation with the glob-characters error; and no token free of all
four ever produces the glob-characters error for any local type. -/
theorem c6_glob_characters (st : StatF) (s : List Char) (fnObj : Option JobArgument) :
    ((∃ a, parseArgumentByType st s .Glob fnObj = .ok a) ↔
      ((∃ c ∈ s, c = '*' ∨ c = '[' ∨ c = ']' ∨ c = '?') ∧
        filepathMatch s [] ≠ .badPattern)) ∧
    (ParseS3Url s = none → (∃ c ∈ s, c = '*' ∨ c = '[' ∨ c = ']' ∨ c = '?') →
      parseArgumentByType st s .FileObj fnObj = .error .globChars) ∧
    (¬(∃ c ∈ s, c = '*' ∨ c = '[' ∨ c = ']' ∨ c = '?') →
      ∀ t, (t = .FileObj ∨ t = .FileOrDir ∨ t = .Dir) →
        parseArgumentByType st s t fnObj ≠ .error .globChars) := by
  have hg := hasGlob_iff s
  refine ⟨⟨?_, ?_⟩, ?_, ?_⟩
  · rintro ⟨a, ha⟩
    by_cases hgb : hasGlob s
    · refine ⟨hg.mp hgb, ?_⟩
      cases hm : filepathMatch s [] with
      | badPattern => simp [parseArgumentByType, hgb, hm] at ha
      | ok m => simp [hm]
    · simp [parseArgumentByType, hgb] at ha
  · rintro ⟨hex, hnb⟩
    have hgb : hasGlob s = true := hg.mpr hex
    cases hm : filepathMatch s [] with
    | badPattern => exact absurd hm hnb
    | ok m => exact ⟨⟨s, none⟩, by simp [parseArgumentByType, hgb, hm]⟩
  · intro hrem hex
    have hgb : hasGlob s = true := hg.mpr hex
    have hdot : s ≠ ['.'] := by
      rintro rfl
      simp [hasGlob] at hgb
    simp [parseArgumentByType, hrem, hdot, hgb]
  · intro hnex t ht
    have hgb : hasGlob s = false := by
      cases h : hasGlob s
      · rfl
      · exact absurd (hg.mp h) hnex
    cases hr : ParseS3Url s with
    | some u => rcases ht with rfl | rfl | rfl <;> simp [parseArgumentByType, hr]
    | none =>
      have hs1 : hasGlob (if s = ['.'] then '.' :: [sepChar] else s) = false := by
        by_cases hdot : s = ['.']
        · rw [if_pos hdot]
          decide
        · rw [if_neg hdot]
          exact hgb
      intro hcontra
      rcases ht with rfl | rfl | rfl <;>
        simp only [parseArgumentByType, hr, hs1] at hcontra <;>
        (repeat' split at hcontra) <;> simp_all

/-- C6 witness: the wildcarded local pattern star-dot-log succeeds as Glob and
fails as FileObj with the glob-characters error. -/
theorem c6_glob_characters_witness :
    (∃ a, parseArgumentByType statAllNotFound (toL "*.log") .Glob none = .ok a) ∧
    parseArgumentByType statAllNotFound (toL "*.log") .FileObj none
      = .error .globChars := by
  refine ⟨((c6_glob_characters statAllNotFound (toL "*.log") none).1).mpr
    ⟨⟨'*', by decide, Or.inl rfl⟩, by decide⟩,
    (c6_glob_characters statAllNotFound (toL "*.log") none).2.1 rfl
      ⟨'*', by decide, Or.inl rfl⟩⟩

/-! Matcher lemmas: a successful match requires every literal of the pattern
to occur as a substring of the subject. -/

theorem wsTry_hasSeq {ps : List RItem} {l : List Char}
    (H : ∀ s caps, rmatch ps s = some caps → hasSeq l s = true) :
    ∀ (k : Nat) (s : List Char) (caps : List (List Char)),
      wsTry (rmatch ps) k s = some caps → hasSeq l s = true := by
  intro k
  induction k with
  | zero => intro s caps h; exact H s caps h
  | succ k ih =>
    intro s caps h
    rw [wsTry] at h
    cases heq : rmatch ps (s.drop (k + 1)) with
    | some c => exact hasSeq_of_drop (H _ _ heq)
    | none =>
      rw [heq] at h
      exact ih s caps h

theorem lazyTry_hasSeq {ps : List RItem} {l : List Char}
    (H : ∀ s caps, rmatch ps s = some caps → hasSeq l s = true) :
    ∀ (s acc : List Char) (caps : List (List Char)),
      lazyTry (rmatch ps) acc s = some caps → hasSeq l s = true := by
  intro s
  induction s with
  | nil => intro acc caps h; simp [lazyTry] at h
  | cons c t ih =>
    intro acc caps h
    rw [lazyTry] at h
    by_cases hd : isDot c = true
    · rw [if_pos hd] at h
      cases heq : rmatch ps t with
      | some cs => exact hasSeq_of_tail (H _ _ heq)
      | none =>
        rw [heq] at h
        exact hasSeq_of_tail (ih _ _ h)
    · rw [if_neg hd] at h
      exact absurd h (by simp)

theorem rmatch_hasSeq :
    ∀ (ps : List RItem) (l : List Char), RItem.lit l ∈ ps →
      ∀ (s : List Char) (caps : List (List Char)),
        rmatch ps s = some caps → hasSeq l s = true := by
  intro ps
  induction ps with
  | nil => intro l hl; exact absurd hl (List.not_mem_nil _)
  | cons p ps ih =>
    intro l hl s caps h
    cases p with
    | wsStar =>
      have hl' : RItem.lit l ∈ ps := by
        rcases List.mem_cons.mp hl with h' | h'
        · exact absurd h' (by simp)
        · exact h'
      rw [rmatch] at h
      exact wsTry_hasSeq (fun s caps hh => ih l hl' s caps hh) _ s caps h
    | lazyGroup =>
      have hl' : RItem.lit l ∈ ps := by
        rcases List.mem_cons.mp hl with h' | h'
        · exact absurd h' (by simp)
        · exact h'
      rw [rmatch] at h
      exact lazyTry_hasSeq (fun s caps hh => ih l hl' s caps hh) s [] caps h
    | lit l' =>
      rw [rmatch] at h
      by_cases hp : l'.isPrefixOf s = true
      · rw [if_pos hp] at h
        rcases List.mem_cons.mp hl with h' | h'
        · cases h'
          exact hasSeq_of_isPrefixOf hp
        · exact hasSeq_of_drop (ih l h' _ _ h)
      · rw [if_neg hp] at h
        exact absurd h (by simp)

theorem rmatch_none_of_noSeq (ps : List RItem) (l : List Char)
    (hmem : RItem.lit l ∈ ps) (s : List Char) (h : hasSeq l s = false) :
    rmatch ps s = none := by
  cases heq : rmatch ps s with
  | none => rfl
  | some caps =>
    rw [rmatch_hasSeq ps l hmem s caps heq] at h
    exact absurd h (by simp)

/-! Claim C9 (amended part): blank lines and operator-free comment lines. -/

/-- C9 amended: a line that is empty after normalization parses to a nil job
with nil error; a line whose normalized form starts with the hash character
and contains neither chaining operator likewise parses to a nil job with nil
error (with an operator present a later segment may instead produce an error,
as the counterexample shows). -/
theorem c9_blank_and_comment_lines (commands : List CommandDef) (st : StatF)
    (line : List Char) :
    (normalizeDesc line = [] → ParseJob commands st line = .ok none) ∧
    (∀ t, normalizeDesc line = '#' :: t →
      hasSeq (toL "&&") ('#' :: t) = false → hasSeq (toL "||") ('#' :: t) = false →
      ParseJob commands st line = .ok none) := by
  constructor
  · intro h
    simp only [ParseJob, h]
    rfl
  · intro t h hand hor
    have hmem1 : RItem.lit (toL "&&") ∈ patAndOr := by simp [patAndOr]
    have hmem2 : RItem.lit (toL "&&") ∈ patAnd := by simp [patAnd]
    have hmem3 : RItem.lit (toL "||") ∈ patOr := by simp [patOr]
    simp only [ParseJob, h, rmatch_none_of_noSeq _ _ hmem1 _ hand,
      rmatch_none_of_noSeq _ _ hmem2 _ hand, rmatch_none_of_noSeq _ _ hmem3 _ hor]
    rfl

/-- C9 witness: an all-blank line and a plain comment line both parse to the
nil job with nil error. -/
theorem c9_blank_and_comment_lines_witness :
    ParseJob tblCp statAllNotFound (toL "   ") = .ok none ∧
    ParseJob tblCp statAllNotFound (toL "# hello") = .ok none := by
  constructor
  · exact (c9_blank_and_comment_lines tblCp statAllNotFound (toL "   ")).1 rfl
  · exact (c9_blank_and_comment_lines tblCp statAllNotFound (toL "# hello")).2
      (toL " hello") rfl (by decide) (by decide)

/-! Claim C2: the aggregate error of Select.Run. -/

/-- C2 counterexample: a finished run whose only enumerated object is a
Glacier-class object returns an empty aggregate (a nil error), although the
claim requires a non-nil aggregate containing one entry for that cold-storage
object. -/
theorem c2_glacier_not_aggregated :
    selectRun [⟨0, false, .noErr, true⟩] (fun _ => .ok) = [] ∧
    (⟨0, false, .noErr, true⟩ : ObjDesc).glacier = true := by
  exact ⟨rfl, rfl⟩

/-- Enumerated form of the submission filter of Select.Run's object loop. -/
theorem selectSubmits_eq_filter (objs : List ObjDesc) :
    selectSubmits objs
      = (objs.filter (fun o => !o.isDir && o.objErr == .noErr && !o.glacier)).map
          (fun o => o.id) := by
  induction objs with
  | nil => rfl
  | cons o rest ih =>
    by_cases hd : o.isDir = true
    · simp [selectSubmits, hd, ih]
    · by_cases hc : o.objErr = .cancel
      · simp [selectSubmits, hd, hc, ih]
      · by_cases he : o.objErr = .noErr
        · by_cases hg : o.glacier = true
          · simp [selectSubmits, hd, hc, he, hg, ih]
          · simp [selectSubmits, hd, hc, he, hg, ih]
        · simp [selectSubmits, hd, hc, he, ih]

/-- C2 amended: the aggregate of a finished run is nil (the empty list of
sub-errors) exactly when no submitted task failed with a non-cancellation
error. Enumeration errors and Glacier-class objects are printed but contribute
no aggregate entries and do not make the result non-nil; the aggregate holds
exactly one entry, keyed by object id, per submitted task failing with a
non-cancellation error, and no entry for cancellation-classified task
errors. -/
theorem c2_run_aggregate (objs : List ObjDesc) (taskRes : Nat → TaskOut) :
    (selectRun objs taskRes = [] ↔
      ∀ o ∈ objs, o.isDir = false → o.objErr = .noErr → o.glacier = false →
        ∀ code, taskRes o.id ≠ .fail false code) ∧
    selectRun objs taskRes
      = (objs.filter (fun o => !o.isDir && o.objErr == .noErr && !o.glacier)).filterMap
          (fun o => match taskRes o.id with
            | .fail false code => some (o.id, code)
            | _ => none) := by
  have hchar : selectRun objs taskRes
      = (objs.filter (fun o => !o.isDir && o.objErr == .noErr && !o.glacier)).filterMap
          (fun o => match taskRes o.id with
            | .fail false code => some (o.id, code)
            | _ => none) := by
    unfold selectRun waiterErrStream
    rw [selectSubmits_eq_filter]
    generalize objs.filter (fun o => !o.isDir && o.objErr == .noErr && !o.glacier) = l
    induction l with
    | nil => rfl
    | cons o rest ih =>
      cases hres : taskRes o.id with
      | ok => simp [List.map_cons, List.filterMap_cons, hres, ih]
      | fail cfl code => cases cfl <;> simp [List.map_cons, List.filterMap_cons, hres, ih]
  refine ⟨?_, hchar⟩
  rw [hchar]
  rw [List.filterMap_eq_nil_iff]
  constructor
  · intro h o ho hd he hg code hcode
    have hmem : o ∈ objs.filter (fun o => !o.isDir && o.objErr == .noErr && !o.glacier) := by
      simp [List.mem_filter, ho, hd, he, hg]
    have := h o hmem
    rw [hcode] at this
    simp at this
  · intro h o ho
    rw [List.mem_filter] at ho
    obtain ⟨hmem, hflt⟩ := ho
    simp only [Bool.and_eq_true, Bool.not_eq_true', beq_iff_eq] at hflt
    obtain ⟨⟨hd, he⟩, hg⟩ := hflt
    cases hres : taskRes o.id with
    | ok => simp
    | fail cflag code =>
      cases cflag with
      | true => simp
      | false => exact absurd hres (h o hmem hd he hg code)

/-! Segment machinery for the chaining grammar (claim C1). -/

/-- Side conditions under which a segment of a chained line passes through
normalization untouched and is split off exactly by the chaining regexes:
nonempty; free of both chaining operators, of double spaces, of space-hash
comment starts and of newlines; first character neither Go whitespace nor the
hash; last character not Go whitespace. -/
def cleanSeg (s : List Char) : Bool :=
  !s.isEmpty &&
  !hasSeq (toL "&&") s && !hasSeq (toL "||") s &&
  !hasSeq (toL "  ") s && !hasSeq (toL " #") s &&
  s.all isDot &&
  (match s.head? with
   | some c => !isSpaceGo c && c != '#'
   | none => false) &&
  (match s.getLast? with
   | some c => !isSpaceGo c
   | none => false)

theorem cleanSeg_spec {s : List Char} (h : cleanSeg s = true) :
    s ≠ [] ∧ hasSeq (toL "&&") s = false ∧ hasSeq (toL "||") s = false ∧
    hasSeq (toL "  ") s = false ∧ hasSeq (toL " #") s = false ∧
    s.all isDot = true ∧
    (∀ c, s.head? = some c → isSpaceGo c = false ∧ c ≠ '#') ∧
    (∀ c, s.getLast? = some c → isSpaceGo c = false) := by
  unfold cleanSeg at h
  simp only [Bool.and_eq_true, Bool.not_eq_true'] at h
  obtain ⟨⟨⟨⟨⟨⟨⟨h1, h2⟩, h3⟩, h4⟩, h5⟩, h6⟩, h7⟩, h8⟩ := h
  refine ⟨by rintro rfl; simp at h1, h2, h3, h4, h5, h6, ?_, ?_⟩
  · intro c hc
    rw [hc] at h7
    simp only [Bool.and_eq_true, Bool.not_eq_true', bne_iff_ne, ne_eq] at h7
    exact h7
  · intro c hc
    rw [hc] at h8
    simpa using h8

theorem isWsRe_false_of_isSpaceGo {c : Char} (h : isSpaceGo c = false) :
    isWsRe c = false := by
  have himp : isWsRe c = true → isSpaceGo c = true := by
    intro hw
    simp only [isWsRe, Bool.or_eq_true] at hw
    simp only [isSpaceGo, Bool.or_eq_true]
    tauto
  cases hw : isWsRe c
  · rfl
  · rw [himp hw] at h
    exact absurd h (by simp)

theorem ne_space_of_isSpaceGo {c : Char} (h : isSpaceGo c = false) : c ≠ ' ' := by
  rintro rfl
  exact absurd h (by decide)

theorem mem_of_getLast?_eq {l : List Char} {c : Char} (h : l.getLast? = some c) :
    c ∈ l := by
  obtain ⟨hne, rfl⟩ := List.mem_getLast?_eq_getLast (show c ∈ l.getLast? from h)
  exact List.getLast_mem hne

theorem takeWhile_cons_false {p : Char → Bool} {c : Char} {t : List Char}
    (h : p c = false) : (c :: t).takeWhile p = [] := by
  simp [List.takeWhile_cons, h]

theorem all_false_of_getLast {p : Char → Bool} {s : List Char} {c : Char}
    (hg : s.getLast? = some c) (hc : p c = false) : s.all p = false := by
  cases ha : s.all p
  · rfl
  · rw [List.all_eq_true] at ha
    rw [ha c (mem_of_getLast?_eq hg)] at hc
    exact absurd hc (by simp)

theorem takeWhile_append_of_not_all {p : Char → Bool} :
    ∀ {u : List Char} (v : List Char), u.all p = false →
      (u ++ v).takeWhile p = u.takeWhile p ∧ (u.takeWhile p).length < u.length := by
  intro u
  induction u with
  | nil => intro v h; simp at h
  | cons c t ih =>
    intro v h
    by_cases hc : p c = true
    · have ht : t.all p = false := by
        rw [List.all_cons, hc] at h
        simpa using h
      obtain ⟨h1, h2⟩ := ih v ht
      constructor
      · simp [List.cons_append, List.takeWhile_cons, hc, h1]
      · simp only [List.takeWhile_cons, hc, if_true, List.length_cons]
        omega
    · rw [Bool.not_eq_true] at hc
      constructor
      · simp [List.cons_append, List.takeWhile_cons, hc]
      · simp [List.takeWhile_cons, hc]

theorem wsTry_none (ps : List RItem) :
    ∀ (k : Nat) (s : List Char),
      (∀ j, j ≤ k → rmatch ps (s.drop j) = none) →
      wsTry (rmatch ps) k s = none := by
  intro k
  induction k with
  | zero =>
    intro s h
    exact h 0 (Nat.le_refl 0)
  | succ k ih =>
    intro s h
    rw [wsTry, h (k + 1) (Nat.le_refl _)]
    exact ih s (fun j hj => h j (Nat.le_succ_of_le hj))

theorem rmatch_wsStar_stop (ps : List RItem) (s : List Char)
    (h : s.takeWhile isWsRe = []) : rmatch (.wsStar :: ps) s = rmatch ps s := by
  rw [rmatch, h]
  rfl

theorem rmatch_wsStar_space (ps : List RItem) (rest : List Char)
    (caps : List (List Char)) (hh : rest.takeWhile isWsRe = [])
    (h : rmatch ps rest = some caps) :
    rmatch (.wsStar :: ps) (' ' :: rest) = some caps := by
  rw [rmatch]
  have htw : (' ' :: rest).takeWhile isWsRe = [' '] := by
    rw [List.takeWhile_cons]
    simp [isWsRe, hh]
  rw [htw]
  show wsTry (rmatch ps) 1 (' ' :: rest) = some caps
  rw [wsTry]
  simp only [List.drop_succ_cons, List.drop_zero, h]

theorem rmatch_sep (ps : List RItem) (x : Char) (tail : List Char)
    (hx : isWsRe x = false) :
    rmatch (.wsStar :: .lit [x, x] :: ps) (' ' :: x :: x :: tail) = rmatch ps tail := by
  have hxs : x ≠ ' ' := by
    rintro rfl
    exact absurd hx (by decide)
  rw [rmatch]
  have htw : (' ' :: x :: x :: tail).takeWhile isWsRe = [' '] := by
    rw [List.takeWhile_cons]
    simp [isWsRe, takeWhile_cons_false hx]
  rw [htw]
  show wsTry (rmatch (.lit [x, x] :: ps)) 1 (' ' :: x :: x :: tail) = rmatch ps tail
  have h2 : rmatch (.lit [x, x] :: ps) (x :: x :: tail) = rmatch ps tail := by
    rw [rmatch]
    have hp : ([x, x]).isPrefixOf (x :: x :: tail) = true := by
      simp [List.isPrefixOf]
    rw [if_pos hp]
    rfl
  have hxe : (x == ' ') = false := by
    cases hh : x == ' '
    · rfl
    · exact absurd (by simpa using hh) hxs
  have h3 : rmatch (.lit [x, x] :: ps) (' ' :: x :: x :: tail) = none := by
    rw [rmatch]
    have hp : ([x, x]).isPrefixOf (' ' :: x :: x :: tail) = false := by
      simp [List.isPrefixOf, hxe]
    rw [hp]
    simp
  rw [wsTry]
  simp only [List.drop_succ_cons, List.drop_zero, h2]
  cases hres : rmatch ps tail with
  | some caps => rfl
  | none =>
    show wsTry (rmatch (.lit [x, x] :: ps)) 0 (' ' :: x :: x :: tail) = none
    show rmatch (.lit [x, x] :: ps) (' ' :: x :: x :: tail) = none
    exact h3

theorem rmatch_inside_none (ps : List RItem) (x : Char) (seg tail : List Char)
    (hxs : x ≠ ' ')
    (hne : seg ≠ [])
    (hlast : ∀ c, seg.getLast? = some c → isWsRe c = false)
    (hnosub : hasSeq [x, x] seg = false) :
    rmatch (.wsStar :: .lit [x, x] :: ps) (seg ++ ' ' :: x :: x :: tail) = none := by
  obtain ⟨cl, hcl⟩ : ∃ c, seg.getLast? = some c := by
    cases hg : seg.getLast? with
    | none => exact absurd (List.getLast?_eq_none_iff.mp hg) hne
    | some c => exact ⟨c, rfl⟩
  have hall : seg.all isWsRe = false := all_false_of_getLast hcl (hlast cl hcl)
  obtain ⟨htw, hlt⟩ := takeWhile_append_of_not_all (' ' :: x :: x :: tail) hall
  rw [rmatch, htw]
  apply wsTry_none
  intro j hj
  have hjlt : j < seg.length := Nat.lt_of_le_of_lt hj hlt
  rw [List.drop_append_of_le_length (Nat.le_of_lt hjlt)]
  cases hd : seg.drop j with
  | nil =>
    exfalso
    rw [List.drop_eq_nil_iff] at hd
    omega
  | cons d ds =>
    rw [rmatch]
    cases ds with
    | nil =>
      have hxe : (x == ' ') = false := by
        cases hh : x == ' '
        · rfl
        · exact absurd (by simpa using hh) hxs
      have hp : ([x, x]).isPrefixOf ([d] ++ ' ' :: x :: x :: tail) = false := by
        simp [List.isPrefixOf, hxe]
      rw [hp]
      simp
    | cons e es =>
      by_cases hp : ([x, x]).isPrefixOf ((d :: e :: es) ++ ' ' :: x :: x :: tail) = true
      · exfalso
        simp only [List.cons_append, List.isPrefixOf, Bool.and_eq_true, beq_iff_eq] at hp
        obtain ⟨he1, he2, -⟩ := hp
        have hseq : hasSeq [x, x] (seg.drop j) = true := by
          rw [hd]
          apply hasSeq_of_isPrefixOf
          simp [List.isPrefixOf, ← he1, ← he2]
        rw [hasSeq_of_drop hseq] at hnosub
        exact absurd hnosub (by simp)
      · rw [if_neg hp]

theorem lazyTry_seg (ps : List RItem) (x : Char) :
    ∀ (seg tail acc : List Char) (caps : List (List Char)),
      isWsRe x = false →
      seg ≠ [] →
      seg.all isDot = true →
      (∀ c, seg.getLast? = some c → isWsRe c = false) →
      hasSeq [x, x] seg = false →
      rmatch ps tail = some caps →
      lazyTry (rmatch (.wsStar :: .lit [x, x] :: ps)) acc (seg ++ ' ' :: x :: x :: tail)
        = some ((acc.reverse ++ seg) :: caps) := by
  intro seg
  induction seg with
  | nil => intro tail acc caps hx hne; exact absurd rfl hne
  | cons c seg' ih =>
    intro tail acc caps hx hne hdot hlast hnosub h
    have hxs : x ≠ ' ' := by
      rintro rfl
      exact absurd hx (by decide)
    have hdc : isDot c = true := by
      rw [List.all_cons] at hdot
      exact (Bool.and_eq_true _ _).mp hdot |>.1
    cases seg' with
    | nil =>
      show lazyTry (rmatch (.wsStar :: .lit [x, x] :: ps)) acc
        (c :: ' ' :: x :: x :: tail) = some ((acc.reverse ++ [c]) :: caps)
      rw [lazyTry, if_pos hdc, rmatch_sep ps x tail hx, h]
    | cons c2 seg'' =>
      have hdot' : (c2 :: seg'').all isDot = true := by
        rw [List.all_cons] at hdot
        exact (Bool.and_eq_true _ _).mp hdot |>.2
      have hlast' : ∀ d, (c2 :: seg'').getLast? = some d → isWsRe d = false := by
        intro d hd
        exact hlast d (by rw [List.getLast?_cons_cons]; exact hd)
      have hnosub' : hasSeq [x, x] (c2 :: seg'') = false := hasSeq_false_tail hnosub
      show lazyTry (rmatch (.wsStar :: .lit [x, x] :: ps)) acc
        (c :: ((c2 :: seg'') ++ ' ' :: x :: x :: tail)) = _
      rw [lazyTry, if_pos hdc]
      rw [rmatch_inside_none ps x (c2 :: seg'') tail hxs (by simp) hlast' hnosub']
      rw [ih tail (c :: acc) caps hx (by simp) hdot' hlast' hnosub' h]
      simp [List.append_assoc]

theorem lazyTry_final :
    ∀ (seg acc : List Char),
      seg ≠ [] → seg.all isDot = true →
      (∀ c, seg.getLast? = some c → isWsRe c = false) →
      lazyTry (rmatch [.wsStar]) acc seg = some [acc.reverse ++ seg] := by
  intro seg
  induction seg with
  | nil => intro acc hne; exact absurd rfl hne
  | cons c seg' ih =>
    intro acc hne hdot hlast
    have hdc : isDot c = true := by
      rw [List.all_cons] at hdot
      exact (Bool.and_eq_true _ _).mp hdot |>.1
    cases seg' with
    | nil =>
      show lazyTry (rmatch [.wsStar]) acc [c] = some [acc.reverse ++ [c]]
      rw [lazyTry, if_pos hdc]
      rfl
    | cons c2 seg'' =>
      have hdot' : (c2 :: seg'').all isDot = true := by
        rw [List.all_cons] at hdot
        exact (Bool.and_eq_true _ _).mp hdot |>.2
      have hlast' : ∀ d, (c2 :: seg'').getLast? = some d → isWsRe d = false := by
        intro d hd
        exact hlast d (by rw [List.getLast?_cons_cons]; exact hd)
      show lazyTry (rmatch [.wsStar]) acc (c :: c2 :: seg'') = _
      rw [lazyTry, if_pos hdc]
      have hfail : rmatch [.wsStar] (c2 :: seg'') = none := by
        obtain ⟨cl, hcl⟩ : ∃ d, (c2 :: seg'').getLast? = some d := by
          cases hg : (c2 :: seg'').getLast? with
          | none => exact absurd (List.getLast?_eq_none_iff.mp hg) (by simp)
          | some d => exact ⟨d, rfl⟩
        have hall : (c2 :: seg'').all isWsRe = false :=
          all_false_of_getLast hcl (hlast' cl hcl)
        have hlt := (takeWhile_append_of_not_all ([] : List Char) hall).2
        rw [rmatch]
        apply wsTry_none
        intro j hj
        have hjlt : j < (c2 :: seg'').length := Nat.lt_of_le_of_lt hj hlt
        cases hd : (c2 :: seg'').drop j with
        | nil =>
          exfalso
          rw [List.drop_eq_nil_iff] at hd
          omega
        | cons d ds => simp [rmatch]
      rw [hfail, ih (c :: acc) (by simp) hdot' hlast']
      simp [List.append_assoc]

/-! Substring absence across an assembled chained line. -/

theorem hasSeq2_append (x y : Char) (u v : List Char) :
    hasSeq [x, y] (u ++ v)
      = (hasSeq [x, y] u ||
         (match u.getLast?, v.head? with
          | some a, some b => x == a && y == b
          | _, _ => false) ||
         hasSeq [x, y] v) := by
  induction u with
  | nil => simp [hasSeq]
  | cons c u' ih =>
    cases u' with
    | nil =>
      cases v with
      | nil => simp [hasSeq, List.isPrefixOf]
      | cons b v' =>
        show hasSeq [x, y] (c :: b :: v') = _
        rw [hasSeq]
        simp only [hasSeq, List.isPrefixOf, List.getLast?_singleton, List.head?_cons]
        cases hxc : x == c <;> cases hyb : y == b <;>
          simp [hasSeq, List.isPrefixOf, hxc, hyb]
    | cons c2 u'' =>
      show hasSeq [x, y] (c :: ((c2 :: u'') ++ v)) = _
      rw [hasSeq, ih]
      have hpre : ([x, y]).isPrefixOf (c :: ((c2 :: u'') ++ v))
          = (x == c && y == c2) := by
        simp [List.isPrefixOf, Bool.and_assoc]
      have hpre2 : hasSeq [x, y] (c :: c2 :: u'')
          = ((x == c && y == c2) || hasSeq [x, y] (c2 :: u'')) := by
        rw [hasSeq]
        simp [List.isPrefixOf, Bool.and_assoc]
      rw [hpre, hpre2, List.getLast?_cons_cons]
      cases hasSeq [x, y] (c2 :: u'') <;> cases (x == c && y == c2) <;> simp

theorem seqMid_false {x y : Char} {u v : List Char}
    (h : ∀ a b, u.getLast? = some a → v.head? = some b → (x == a && y == b) = false) :
    (match u.getLast?, v.head? with
     | some a, some b => x == a && y == b
     | _, _ => false) = false := by
  cases hu : u.getLast? with
  | none => rfl
  | some a =>
    cases hv : v.head? with
    | none => rfl
    | some b => exact h a b hu hv

theorem hasSeq2_append_false {x y : Char} {u v : List Char}
    (hu : hasSeq [x, y] u = false) (hv : hasSeq [x, y] v = false)
    (hmid : ∀ a b, u.getLast? = some a → v.head? = some b → (x == a && y == b) = false) :
    hasSeq [x, y] (u ++ v) = false := by
  rw [hasSeq2_append, hu, hv, seqMid_false hmid]
  rfl

theorem line2_noSeq {x y o : Char} {A B : List Char}
    (hA : hasSeq [x, y] A = false) (hB : hasSeq [x, y] B = false)
    (hsep : hasSeq [x, y] [' ', o, o, ' '] = false)
    (hmidA : ∀ a, A.getLast? = some a → (x == a && y == ' ') = false)
    (hmidB : ∀ b, B.head? = some b → (x == ' ' && y == b) = false)
    (hBne : B ≠ []) :
    hasSeq [x, y] (A ++ ([' ', o, o, ' '] ++ B)) = false := by
  apply hasSeq2_append_false hA
  · apply hasSeq2_append_false hsep hB
    intro a b ha hb
    rw [show ([' ', o, o, ' '] : List Char).getLast? = some ' ' from rfl] at ha
    have ha' : a = ' ' := (Option.some.inj ha).symm
    subst ha'
    exact hmidB b hb
  · intro a b ha hb
    rw [show (([' ', o, o, ' '] ++ B : List Char)).head? = some ' ' from rfl] at hb
    have hb' : b = ' ' := (Option.some.inj hb).symm
    subst hb'
    exact hmidA a ha

theorem line3_noSeq {x y o1 o2 : Char} {A B C : List Char}
    (hA : hasSeq [x, y] A = false) (hB : hasSeq [x, y] B = false)
    (hC : hasSeq [x, y] C = false)
    (hsep1 : hasSeq [x, y] [' ', o1, o1, ' '] = false)
    (hsep2 : hasSeq [x, y] [' ', o2, o2, ' '] = false)
    (hmidA : ∀ a, A.getLast? = some a → (x == a && y == ' ') = false)
    (hmidB1 : ∀ b, B.head? = some b → (x == ' ' && y == b) = false)
    (hmidB2 : ∀ a, B.getLast? = some a → (x == a && y == ' ') = false)
    (hmidC : ∀ b, C.head? = some b → (x == ' ' && y == b) = false)
    (hBne : B ≠ []) (hCne : C ≠ []) :
    hasSeq [x, y] (A ++ ([' ', o1, o1, ' '] ++ (B ++ ([' ', o2, o2, ' '] ++ C)))) = false := by
  apply hasSeq2_append_false hA
  · apply hasSeq2_append_false hsep1 (line2_noSeq hB hC hsep2 hmidB2 hmidC hCne)
    intro a b ha hb
    rw [show ([' ', o1, o1, ' '] : List Char).getLast? = some ' ' from rfl] at ha
    have ha' : a = ' ' := (Option.some.inj ha).symm
    subst ha'
    rw [List.head?_append_of_ne_nil B hBne] at hb
    exact hmidB1 b hb
  · intro a b ha hb
    rw [show (([' ', o1, o1, ' '] ++ (B ++ ([' ', o2, o2, ' '] ++ C)) : List Char)).head?
        = some ' ' from rfl] at hb
    have hb' : b = ' ' := (Option.some.inj hb).symm
    subst hb'
    exact hmidA a ha

/-! Normalization is the identity on clean chained lines. -/

theorem commentCut_id : ∀ (s : List Char), hasSeq (toL " #") s = false →
    commentCut s = s := by
  intro s
  induction s using commentCut.induct with
  | case1 => intro h; rfl
  | case2 c => intro h; rfl
  | case3 c d t hcd =>
    intro h
    exfalso
    obtain ⟨rfl, rfl⟩ := hcd
    rw [show hasSeq (toL " #") (' ' :: '#' :: t)
        = (((toL " #").isPrefixOf (' ' :: '#' :: t)) || hasSeq (toL " #") ('#' :: t))
      from rfl] at h
    simp [List.isPrefixOf] at h
  | case4 c d t hcd ih =>
    intro h
    rw [show commentCut (c :: d :: t) = c :: commentCut (d :: t) from by
      simp [commentCut, hcd]]
    rw [ih (hasSeq_false_tail h)]

theorem collapseOnce_id : ∀ (s : List Char), hasSeq (toL "  ") s = false →
    collapseOnce s = s := by
  intro s
  induction s using collapseOnce.induct with
  | case1 => intro h; rfl
  | case2 c => intro h; rfl
  | case3 c d t hcd =>
    intro h
    exfalso
    obtain ⟨rfl, rfl⟩ := hcd
    rw [show hasSeq (toL "  ") (' ' :: ' ' :: t)
        = (((toL "  ").isPrefixOf (' ' :: ' ' :: t)) || hasSeq (toL "  ") (' ' :: t))
      from rfl] at h
    simp [List.isPrefixOf] at h
  | case4 c d t hcd ih =>
    intro h
    rw [show collapseOnce (c :: d :: t) = c :: collapseOnce (d :: t) from by
      simp [collapseOnce, hcd]]
    rw [ih (hasSeq_false_tail h)]

theorem dropWhile_id_of_head {p : Char → Bool} {s : List Char}
    (h : ∀ c, s.head? = some c → p c = false) : s.dropWhile p = s := by
  cases s with
  | nil => rfl
  | cons c t =>
    rw [List.dropWhile_cons, h c rfl]
    rfl

theorem trimSpace_id {s : List Char}
    (hh : ∀ c, s.head? = some c → isSpaceGo c = false)
    (hl : ∀ c, s.getLast? = some c → isSpaceGo c = false) :
    trimSpace s = s := by
  unfold trimSpace
  rw [dropWhile_id_of_head hh]
  rw [dropWhile_id_of_head (by
    intro c hc
    rw [List.head?_reverse] at hc
    exact hl c hc)]
  exact List.reverse_reverse s

theorem normalizeDesc_id {s : List Char}
    (h1 : hasSeq (toL " #") s = false) (h2 : hasSeq (toL "  ") s = false)
    (hh : ∀ c, s.head? = some c → isSpaceGo c = false)
    (hl : ∀ c, s.getLast? = some c → isSpaceGo c = false) :
    normalizeDesc s = s := by
  unfold normalizeDesc
  rw [commentCut_id s h1, trimSpace_id hh hl, collapseOnce_id s h2,
    collapseOnce_id s h2, collapseOnce_id s h2]

theorem append_ne_nil_of_right {u v : List Char} (h : v ≠ []) : u ++ v ≠ [] := by
  intro he
  rcases u with _ | ⟨a, u'⟩
  · exact h he
  · simp at he

/-! Exact segment splitting of the three chaining regexes on clean lines. -/

theorem rmatch_patAndOr_split (A B C : List Char)
    (hA : cleanSeg A = true) (hB : cleanSeg B = true) (hC : cleanSeg C = true) :
    rmatch patAndOr (A ++ (toL " && " ++ (B ++ (toL " || " ++ C)))) = some [A, B, C] := by
  obtain ⟨hAne, hAand, hAor, -, -, hAdot, hAhead, hAlast⟩ := cleanSeg_spec hA
  obtain ⟨hBne, hBand, hBor, -, -, hBdot, hBhead, hBlast⟩ := cleanSeg_spec hB
  obtain ⟨hCne, hCand, hCor, -, -, hCdot, hChead, hClast⟩ := cleanSeg_spec hC
  have hAlast' : ∀ c, A.getLast? = some c → isWsRe c = false :=
    fun c hc => isWsRe_false_of_isSpaceGo (hAlast c hc)
  have hBlast' : ∀ c, B.getLast? = some c → isWsRe c = false :=
    fun c hc => isWsRe_false_of_isSpaceGo (hBlast c hc)
  have hClast' : ∀ c, C.getLast? = some c → isWsRe c = false :=
    fun c hc => isWsRe_false_of_isSpaceGo (hClast c hc)
  have hC1 : rmatch [.lazyGroup, .wsStar] C = some [C] := by
    rw [rmatch]
    have := lazyTry_final C [] hCne hCdot hClast'
    simpa using this
  have hCtw : C.takeWhile isWsRe = [] := by
    cases C with
    | nil => rfl
    | cons c0 C' =>
      exact takeWhile_cons_false (isWsRe_false_of_isSpaceGo (hChead c0 rfl).1)
  have hC2 : rmatch [.wsStar, .lazyGroup, .wsStar] (' ' :: C) = some [C] :=
    rmatch_wsStar_space _ _ _ hCtw hC1
  have hB1 : rmatch
      (.lazyGroup :: .wsStar :: .lit (toL "||") :: [.wsStar, .lazyGroup, .wsStar])
      (B ++ ' ' :: '|' :: '|' :: (' ' :: C)) = some [B, C] := by
    rw [rmatch]
    have := lazyTry_seg [.wsStar, .lazyGroup, .wsStar] '|' B (' ' :: C) [] [C]
      (by decide) hBne hBdot hBlast' (by exact hBor) hC2
    simpa using this
  have hBtw : (B ++ ' ' :: '|' :: '|' :: (' ' :: C)).takeWhile isWsRe = [] := by
    cases B with
    | nil => exact absurd rfl hBne
    | cons b0 B' =>
      exact takeWhile_cons_false (isWsRe_false_of_isSpaceGo (hBhead b0 rfl).1)
  have hB2 : rmatch
      (.wsStar :: .lazyGroup :: .wsStar :: .lit (toL "||") :: [.wsStar, .lazyGroup, .wsStar])
      (' ' :: (B ++ ' ' :: '|' :: '|' :: (' ' :: C))) = some [B, C] :=
    rmatch_wsStar_space _ _ _ hBtw hB1
  have hA1 : rmatch
      (.lazyGroup :: .wsStar :: .lit (toL "&&") ::
        (.wsStar :: .lazyGroup :: .wsStar :: .lit (toL "||") :: [.wsStar, .lazyGroup, .wsStar]))
      (A ++ ' ' :: '&' :: '&' :: (' ' :: (B ++ ' ' :: '|' :: '|' :: (' ' :: C))))
      = some [A, B, C] := by
    rw [rmatch]
    have := lazyTry_seg
      (.wsStar :: .lazyGroup :: .wsStar :: .lit (toL "||") :: [.wsStar, .lazyGroup, .wsStar])
      '&' A (' ' :: (B ++ ' ' :: '|' :: '|' :: (' ' :: C))) [] [B, C]
      (by decide) hAne hAdot hAlast' (by exact hAand) hB2
    simpa using this
  have hAtw : (A ++ ' ' :: '&' :: '&' ::
      (' ' :: (B ++ ' ' :: '|' :: '|' :: (' ' :: C)))).takeWhile isWsRe = [] := by
    cases A with
    | nil => exact absurd rfl hAne
    | cons a0 A' =>
      exact takeWhile_cons_false (isWsRe_false_of_isSpaceGo (hAhead a0 rfl).1)
  have esubj : A ++ (toL " && " ++ (B ++ (toL " || " ++ C)))
      = A ++ ' ' :: '&' :: '&' :: (' ' :: (B ++ ' ' :: '|' :: '|' :: (' ' :: C))) := rfl
  rw [esubj]
  rw [show patAndOr = .wsStar ::
    (.lazyGroup :: .wsStar :: .lit (toL "&&") ::
      (.wsStar :: .lazyGroup :: .wsStar :: .lit (toL "||") :: [.wsStar, .lazyGroup, .wsStar]))
    from rfl]
  rw [rmatch_wsStar_stop _ _ hAtw]
  exact hA1

theorem rmatch_pat2_split (x : Char) (A B : List Char)
    (hx : isWsRe x = false)
    (hAne : A ≠ []) (hAdot : A.all isDot = true)
    (hAhead : ∀ c, A.head? = some c → isSpaceGo c = false)
    (hAlast : ∀ c, A.getLast? = some c → isSpaceGo c = false)
    (hAop : hasSeq [x, x] A = false)
    (hBne : B ≠ []) (hBdot : B.all isDot = true)
    (hBhead : ∀ c, B.head? = some c → isSpaceGo c = false)
    (hBlast : ∀ c, B.getLast? = some c → isSpaceGo c = false) :
    rmatch [.wsStar, .lazyGroup, .wsStar, .lit [x, x], .wsStar, .lazyGroup, .wsStar]
      (A ++ ' ' :: x :: x :: (' ' :: B)) = some [A, B] := by
  have hAlast' : ∀ c, A.getLast? = some c → isWsRe c = false :=
    fun c hc => isWsRe_false_of_isSpaceGo (hAlast c hc)
  have hBlast' : ∀ c, B.getLast? = some c → isWsRe c = false :=
    fun c hc => isWsRe_false_of_isSpaceGo (hBlast c hc)
  have hB1 : rmatch [.lazyGroup, .wsStar] B = some [B] := by
    rw [rmatch]
    have := lazyTry_final B [] hBne hBdot hBlast'
    simpa using this
  have hBtw : B.takeWhile isWsRe = [] := by
    cases B with
    | nil => exact absurd rfl hBne
    | cons b0 B' =>
      exact takeWhile_cons_false (isWsRe_false_of_isSpaceGo (hBhead b0 rfl))
  have hB2 : rmatch [.wsStar, .lazyGroup, .wsStar] (' ' :: B) = some [B] :=
    rmatch_wsStar_space _ _ _ hBtw hB1
  have hA1 : rmatch (.lazyGroup :: .wsStar :: .lit [x, x] :: [.wsStar, .lazyGroup, .wsStar])
      (A ++ ' ' :: x :: x :: (' ' :: B)) = some [A, B] := by
    rw [rmatch]
    have := lazyTry_seg [.wsStar, .lazyGroup, .wsStar] x A (' ' :: B) [] [B]
      hx hAne hAdot hAlast' hAop hB2
    simpa using this
  have hAtw : (A ++ ' ' :: x :: x :: (' ' :: B)).takeWhile isWsRe = [] := by
    cases A with
    | nil => exact absurd rfl hAne
    | cons a0 A' =>
      exact takeWhile_cons_false (isWsRe_false_of_isSpaceGo (hAhead a0 rfl))
  rw [show ([.wsStar, .lazyGroup, .wsStar, .lit [x, x], .wsStar, .lazyGroup, .wsStar]
      : List RItem)
    = .wsStar :: (.lazyGroup :: .wsStar :: .lit [x, x] :: [.wsStar, .lazyGroup, .wsStar])
    from rfl]
  rw [rmatch_wsStar_stop _ _ hAtw]
  exact hA1

/-! Absence of operator pairs and of normalization triggers on assembled
chained lines. -/

theorem mid_left_false {x y : Char} {A : List Char} (hy : (y == ' ') = false) :
    ∀ a, A.getLast? = some a → (x == a && y == ' ') = false := by
  intro a ha
  rw [hy, Bool.and_false]

theorem mid_right_false {x y : Char} {B : List Char} (hx : (x == ' ') = false) :
    ∀ b, B.head? = some b → (x == ' ' && y == b) = false := by
  intro b hb
  rw [hx, Bool.false_and]

theorem mid_left_of_last {x y : Char} {A : List Char}
    (hAlast : ∀ c, A.getLast? = some c → (x == c) = false) :
    ∀ a, A.getLast? = some a → (x == a && y == ' ') = false := by
  intro a ha
  rw [hAlast a ha, Bool.false_and]

theorem mid_right_of_head {x y : Char} {B : List Char}
    (hBhead : ∀ c, B.head? = some c → (y == c) = false) :
    ∀ b, B.head? = some b → (x == ' ' && y == b) = false := by
  intro b hb
  rw [hBhead b hb, Bool.and_false]

theorem beq_false_of_ne {a b : Char} (h : a ≠ b) : (a == b) = false := by
  cases hh : a == b
  · rfl
  · exact absurd (by simpa using hh) h

theorem line2_noSS {o : Char} (ho : o ≠ ' ') {A B : List Char}
    (hA : cleanSeg A = true) (hB : cleanSeg B = true) :
    hasSeq [' ', ' '] (A ++ ([' ', o, o, ' '] ++ B)) = false := by
  obtain ⟨hAne, -, -, hAsp, -, -, hAhead, hAlast⟩ := cleanSeg_spec hA
  obtain ⟨hBne, -, -, hBsp, -, -, hBhead, hBlast⟩ := cleanSeg_spec hB
  have hoe : ((' ' : Char) == o) = false := beq_false_of_ne (fun e => ho e.symm)
  apply line2_noSeq (by exact hAsp) (by exact hBsp)
  · simp [hasSeq, List.isPrefixOf, hoe]
  · exact mid_left_of_last (fun c hc =>
      beq_false_of_ne (fun e => ne_space_of_isSpaceGo (hAlast c hc) e.symm))
  · exact mid_right_of_head (fun c hc =>
      beq_false_of_ne (fun e => ne_space_of_isSpaceGo (hBhead c hc).1 e.symm))
  · exact hBne

theorem line2_noSH {o : Char} (ho1 : o ≠ ' ') (ho2 : o ≠ '#') {A B : List Char}
    (hA : cleanSeg A = true) (hB : cleanSeg B = true) :
    hasSeq [' ', '#'] (A ++ ([' ', o, o, ' '] ++ B)) = false := by
  obtain ⟨hAne, -, -, -, hAsh, -, hAhead, hAlast⟩ := cleanSeg_spec hA
  obtain ⟨hBne, -, -, -, hBsh, -, hBhead, hBlast⟩ := cleanSeg_spec hB
  have hoe : ((' ' : Char) == o) = false := beq_false_of_ne (fun e => ho1 e.symm)
  have hoh : (('#' : Char) == o) = false := beq_false_of_ne (fun e => ho2 e.symm)
  apply line2_noSeq (by exact hAsh) (by exact hBsh)
  · simp [hasSeq, List.isPrefixOf, hoe, hoh]
  · exact mid_left_of_last (fun c hc =>
      beq_false_of_ne (fun e => ne_space_of_isSpaceGo (hAlast c hc) e.symm))
  · exact mid_right_of_head (fun c hc =>
      beq_false_of_ne (fun e => (hBhead c hc).2 e.symm))
  · exact hBne

theorem line2_noOp {p o : Char} (hps : p ≠ ' ') (hpo : p ≠ o) {A B : List Char}
    (hAop : hasSeq [p, p] A = false) (hBop : hasSeq [p, p] B = false)
    (hBne : B ≠ []) :
    hasSeq [p, p] (A ++ ([' ', o, o, ' '] ++ B)) = false := by
  have hpe : (p == ' ') = false := beq_false_of_ne hps
  have hpoe : (p == o) = false := beq_false_of_ne hpo
  apply line2_noSeq hAop hBop
  · simp [hasSeq, List.isPrefixOf, hpe, hpoe]
  · exact mid_left_false hpe
  · exact mid_right_false hpe
  · exact hBne

theorem line3_noSS {o1 o2 : Char} (h1 : o1 ≠ ' ') (h2 : o2 ≠ ' ') {A B C : List Char}
    (hA : cleanSeg A = true) (hB : cleanSeg B = true) (hC : cleanSeg C = true) :
    hasSeq [' ', ' '] (A ++ ([' ', o1, o1, ' '] ++ (B ++ ([' ', o2, o2, ' '] ++ C)))) = false := by
  obtain ⟨hAne, -, -, hAsp, -, -, hAhead, hAlast⟩ := cleanSeg_spec hA
  obtain ⟨hBne, -, -, hBsp, -, -, hBhead, hBlast⟩ := cleanSeg_spec hB
  obtain ⟨hCne, -, -, hCsp, -, -, hChead, hClast⟩ := cleanSeg_spec hC
  have ho1 : ((' ' : Char) == o1) = false := beq_false_of_ne (fun e => h1 e.symm)
  have ho2 : ((' ' : Char) == o2) = false := beq_false_of_ne (fun e => h2 e.symm)
  apply line3_noSeq (by exact hAsp) (by exact hBsp) (by exact hCsp)
  · simp [hasSeq, List.isPrefixOf, ho1]
  · simp [hasSeq, List.isPrefixOf, ho2]
  · exact mid_left_of_last (fun c hc =>
      beq_false_of_ne (fun e => ne_space_of_isSpaceGo (hAlast c hc) e.symm))
  · exact mid_right_of_head (fun c hc =>
      beq_false_of_ne (fun e => ne_space_of_isSpaceGo (hBhead c hc).1 e.symm))
  · exact mid_left_of_last (fun c hc =>
      beq_false_of_ne (fun e => ne_space_of_isSpaceGo (hBlast c hc) e.symm))
  · exact mid_right_of_head (fun c hc =>
      beq_false_of_ne (fun e => ne_space_of_isSpaceGo (hChead c hc).1 e.symm))
  · exact hBne
  · exact hCne

theorem line3_noSH {o1 o2 : Char} (h1 : o1 ≠ ' ') (h1h : o1 ≠ '#')
    (h2 : o2 ≠ ' ') (h2h : o2 ≠ '#') {A B C : List Char}
    (hA : cleanSeg A = true) (hB : cleanSeg B = true) (hC : cleanSeg C = true) :
    hasSeq [' ', '#'] (A ++ ([' ', o1, o1, ' '] ++ (B ++ ([' ', o2, o2, ' '] ++ C)))) = false := by
  obtain ⟨hAne, -, -, -, hAsh, -, hAhead, hAlast⟩ := cleanSeg_spec hA
  obtain ⟨hBne, -, -, -, hBsh, -, hBhead, hBlast⟩ := cleanSeg_spec hB
  obtain ⟨hCne, -, -, -, hCsh, -, hChead, hClast⟩ := cleanSeg_spec hC
  have ho1 : ((' ' : Char) == o1) = false := beq_false_of_ne (fun e => h1 e.symm)
  have ho2 : ((' ' : Char) == o2) = false := beq_false_of_ne (fun e => h2 e.symm)
  have ho1h : (('#' : Char) == o1) = false := beq_false_of_ne (fun e => h1h e.symm)
  have ho2h : (('#' : Char) == o2) = false := beq_false_of_ne (fun e => h2h e.symm)
  apply line3_noSeq (by exact hAsh) (by exact hBsh) (by exact hCsh)
  · simp [hasSeq, List.isPrefixOf, ho1, ho1h]
  · simp [hasSeq, List.isPrefixOf, ho2, ho2h]
  · exact mid_left_of_last (fun c hc =>
      beq_false_of_ne (fun e => ne_space_of_isSpaceGo (hAlast c hc) e.symm))
  · exact mid_right_of_head (fun c hc =>
      beq_false_of_ne (fun e => (hBhead c hc).2 e.symm))
  · exact mid_left_of_last (fun c hc =>
      beq_false_of_ne (fun e => ne_space_of_isSpaceGo (hBlast c hc) e.symm))
  · exact mid_right_of_head (fun c hc =>
      beq_false_of_ne (fun e => (hChead c hc).2 e.symm))
  · exact hBne
  · exact hCne

/-! Normalization is the identity on assembled clean chained lines. -/

theorem normalizeDesc_line2 (o : Char) (ho1 : o ≠ ' ') (ho2 : o ≠ '#')
    {A B : List Char} (hA : cleanSeg A = true) (hB : cleanSeg B = true) :
    normalizeDesc (A ++ ([' ', o, o, ' '] ++ B)) = A ++ ([' ', o, o, ' '] ++ B) := by
  obtain ⟨hAne, -, -, -, -, -, hAhead, -⟩ := cleanSeg_spec hA
  obtain ⟨hBne, -, -, -, -, -, -, hBlast⟩ := cleanSeg_spec hB
  apply normalizeDesc_id
  · exact line2_noSH ho1 ho2 hA hB
  · exact line2_noSS ho1 hA hB
  · intro c hc
    rw [List.head?_append_of_ne_nil A hAne] at hc
    exact (hAhead c hc).1
  · intro c hc
    rw [List.getLast?_append_of_ne_nil A
        (show ([' ', o, o, ' '] ++ B : List Char) ≠ [] by simp),
      List.getLast?_append_of_ne_nil _ hBne] at hc
    exact hBlast c hc

theorem normalizeDesc_line3 (o1 o2 : Char) (h1 : o1 ≠ ' ') (h1h : o1 ≠ '#')
    (h2 : o2 ≠ ' ') (h2h : o2 ≠ '#') {A B C : List Char}
    (hA : cleanSeg A = true) (hB : cleanSeg B = true) (hC : cleanSeg C = true) :
    normalizeDesc (A ++ ([' ', o1, o1, ' '] ++ (B ++ ([' ', o2, o2, ' '] ++ C))))
      = A ++ ([' ', o1, o1, ' '] ++ (B ++ ([' ', o2, o2, ' '] ++ C))) := by
  obtain ⟨hAne, -, -, -, -, -, hAhead, -⟩ := cleanSeg_spec hA
  obtain ⟨hCne, -, -, -, -, -, -, hClast⟩ := cleanSeg_spec hC
  apply normalizeDesc_id
  · exact line3_noSH h1 h1h h2 h2h hA hB hC
  · exact line3_noSS h1 h2 hA hB hC
  · intro c hc
    rw [List.head?_append_of_ne_nil A hAne] at hc
    exact (hAhead c hc).1
  · intro c hc
    rw [List.getLast?_append_of_ne_nil A
        (show ([' ', o1, o1, ' '] ++ (B ++ ([' ', o2, o2, ' '] ++ C)) : List Char) ≠ []
          by simp),
      List.getLast?_append_of_ne_nil _
        (show (B ++ ([' ', o2, o2, ' '] ++ C) : List Char) ≠ [] from
          append_ne_nil_of_right (by simp)),
      List.getLast?_append_of_ne_nil _
        (show ([' ', o2, o2, ' '] ++ C : List Char) ≠ [] by simp),
      List.getLast?_append_of_ne_nil _ hCne] at hc
    exact hClast c hc

/-! Claim C1: the three chaining shapes and the nested-commands rejection. -/

/-- C1: (a) for clean segments A, B, C the line A-and-and-B-or-or-C parses to
the composition of the three independent single-job parses, the main job
being A's with successCommand from B and failCommand from C; (b) A-and-and-B
sets only successCommand; (c) A-or-or-B sets only failCommand; (d) every
nonempty segment not starting with the hash that itself still contains either
chaining operator fails parseSingleJob with the nested-commands error; (e) in
particular, whenever the segment cp a itself parses, the line with three
chained and-operators fails ParseJob with the nested-commands error. -/
theorem c1_chaining_shapes :
    (∀ (commands : List CommandDef) (st : StatF) (A B C : List Char),
      cleanSeg A = true → cleanSeg B = true → cleanSeg C = true →
      ParseJob commands st (A ++ toL " && " ++ B ++ toL " || " ++ C)
        = (do
            let j ← parseSingleJob commands st A
            let s ← parseSingleJob commands st B
            let f ← parseSingleJob commands st C
            pure (attachConts j s f))) ∧
    (∀ (commands : List CommandDef) (st : StatF) (A B : List Char),
      cleanSeg A = true → cleanSeg B = true →
      ParseJob commands st (A ++ toL " && " ++ B)
        = (do
            let j ← parseSingleJob commands st A
            let s ← parseSingleJob commands st B
            pure (attachConts j s none))) ∧
    (∀ (commands : List CommandDef) (st : StatF) (A B : List Char),
      cleanSeg A = true → cleanSeg B = true →
      ParseJob commands st (A ++ toL " || " ++ B)
        = (do
            let j ← parseSingleJob commands st A
            let f ← parseSingleJob commands st B
            pure (attachConts j none f))) ∧
    (∀ (commands : List CommandDef) (st : StatF) (s : List Char),
      s ≠ [] → s.head? ≠ some '#' →
      hasSeq (toL "&&") s = true ∨ hasSeq (toL "||") s = true →
      parseSingleJob commands st s = .error .nested) ∧
    (∀ (commands : List CommandDef) (st : StatF) (j : Option Job),
      parseSingleJob commands st (toL "cp a") = .ok j →
      ParseJob commands st (toL "cp a && cp b && cp c") = .error .nested) := by
  refine ⟨?_, ?_, ?_, ?_, ?_⟩
  · intro commands st A B C hA hB hC
    have hassoc : A ++ toL " && " ++ B ++ toL " || " ++ C
        = A ++ ([' ', '&', '&', ' '] ++ (B ++ ([' ', '|', '|', ' '] ++ C))) := by
      simp only [List.append_assoc]
      rfl
    rw [hassoc]
    have hnorm := normalizeDesc_line3 '&' '|' (by decide) (by decide) (by decide)
      (by decide) hA hB hC
    have hsplit : rmatch patAndOr
        (A ++ ([' ', '&', '&', ' '] ++ (B ++ ([' ', '|', '|', ' '] ++ C))))
        = some [A, B, C] := rmatch_patAndOr_split A B C hA hB hC
    simp only [ParseJob, hnorm, hsplit]
  · intro commands st A B hA hB
    obtain ⟨hAne, hAand, hAor, -, -, hAdot, hAhead, hAlast⟩ := cleanSeg_spec hA
    obtain ⟨hBne, hBand, hBor, -, -, hBdot, hBhead, hBlast⟩ := cleanSeg_spec hB
    have hassoc : A ++ toL " && " ++ B = A ++ ([' ', '&', '&', ' '] ++ B) := by
      simp only [List.append_assoc]
      rfl
    rw [hassoc]
    have hnorm := normalizeDesc_line2 '&' (by decide) (by decide) hA hB
    have hnoPipe : hasSeq ['|', '|'] (A ++ ([' ', '&', '&', ' '] ++ B)) = false :=
      line2_noOp (by decide) (by decide) (by exact hAor) (by exact hBor) hBne
    have hfail1 : rmatch patAndOr (A ++ ([' ', '&', '&', ' '] ++ B)) = none :=
      rmatch_none_of_noSeq patAndOr (toL "||") (by decide) _ (by exact hnoPipe)
    have hsplit : rmatch patAnd (A ++ ([' ', '&', '&', ' '] ++ B)) = some [A, B] := by
      have := rmatch_pat2_split '&' A B (by decide) hAne hAdot
        (fun c hc => (hAhead c hc).1) hAlast (by exact hAand) hBne hBdot
        (fun c hc => (hBhead c hc).1) hBlast
      exact this
    simp only [ParseJob, hnorm, hfail1, hsplit]
  · intro commands st A B hA hB
    obtain ⟨hAne, hAand, hAor, -, -, hAdot, hAhead, hAlast⟩ := cleanSeg_spec hA
    obtain ⟨hBne, hBand, hBor, -, -, hBdot, hBhead, hBlast⟩ := cleanSeg_spec hB
    have hassoc : A ++ toL " || " ++ B = A ++ ([' ', '|', '|', ' '] ++ B) := by
      simp only [List.append_assoc]
      rfl
    rw [hassoc]
    have hnorm := normalizeDesc_line2 '|' (by decide) (by decide) hA hB
    have hnoAmp : hasSeq ['&', '&'] (A ++ ([' ', '|', '|', ' '] ++ B)) = false :=
      line2_noOp (by decide) (by decide) (by exact hAand) (by exact hBand) hBne
    have hfail1 : rmatch patAndOr (A ++ ([' ', '|', '|', ' '] ++ B)) = none :=
      rmatch_none_of_noSeq patAndOr (toL "&&") (by decide) _ (by exact hnoAmp)
    have hfail2 : rmatch patAnd (A ++ ([' ', '|', '|', ' '] ++ B)) = none :=
      rmatch_none_of_noSeq patAnd (toL "&&") (by decide) _ (by exact hnoAmp)
    have hsplit : rmatch patOr (A ++ ([' ', '|', '|', ' '] ++ B)) = some [A, B] := by
      have := rmatch_pat2_split '|' A B (by decide) hAne hAdot
        (fun c hc => (hAhead c hc).1) hAlast (by exact hAor) hBne hBdot
        (fun c hc => (hBhead c hc).1) hBlast
      exact this
    simp only [ParseJob, hnorm, hfail1, hfail2, hsplit]
  · intro commands st s hne hh hop
    cases s with
    | nil => exact absurd rfl hne
    | cons c0 t =>
      have hc0 : ¬ c0 = '#' := by
        intro e
        subst e
        exact hh rfl
      rcases hop with h | h
      · simp [parseSingleJob, hc0, h]
      · by_cases hand : hasSeq (toL "&&") (c0 :: t) = true
        · simp [parseSingleJob, hc0, hand]
        · simp [parseSingleJob, hc0, hand, h]
  · intro commands st j h
    have e1 : ParseJob commands st (toL "cp a && cp b && cp c")
        = (do
            let j ← parseSingleJob commands st (toL "cp a")
            let s ← parseSingleJob commands st (toL "cp b && cp c")
            pure (attachConts j s none)) := rfl
    rw [e1, h]
    rfl

/-- C1 counterexample: a segment that still contains the and-operator but
begins with the hash character does not fail with the nested-commands error —
parseSingleJob's leading-hash check runs before its operator check and yields
a nil job, so the whole line parses successfully (the hash survives
normalization because the comment cut splits only on space-hash), refuting
the claim's unconditional every-segment sentence. -/
theorem c1_hash_segment_no_nested_error :
    ParseJob tblCp statAllNotFound (toL "cp a &&#b && c")
      = .ok (some (.mk (toL "cp a") (toL "cp") 0 [⟨toL "a", none⟩] [] none none)) ∧
    hasSeq (toL "&&") (toL "#b && c") = true := by
  exact ⟨rfl, rfl⟩

/-- C1 witness: with the single-entry cp table, the full three-segment chain
and the rejected triple and-chain, at concrete inputs. -/
theorem c1_chaining_shapes_witness :
    ParseJob tblCp statAllNotFound (toL "cp a && cp b || cp c")
      = (do
          let j ← parseSingleJob tblCp statAllNotFound (toL "cp a")
          let s ← parseSingleJob tblCp statAllNotFound (toL "cp b")
          let f ← parseSingleJob tblCp statAllNotFound (toL "cp c")
          pure (attachConts j s f)) ∧
    ParseJob tblCp statAllNotFound (toL "cp a && cp b && cp c") = .error .nested := by
  constructor
  · exact c1_chaining_shapes.1 tblCp statAllNotFound (toL "cp a") (toL "cp b")
      (toL "cp c") (by decide) (by decide) (by decide)
  · exact c1_chaining_shapes.2.2.2.2 tblCp statAllNotFound
      (some (.mk (toL "cp a") (toL "cp") 0 [⟨toL "a", none⟩] [] none none)) rfl

end S5cmd
